import Mathlib

/-!
Verification of the muze hot-path documentation pipeline.

This file shallowly embeds the parts of the repository that the checked
claims are about:

* `scripts/hotpath/semantic.py` — fallback parser, Zhang-Shasha tree edit
  distance, change classification (`analyze_change`,
  `should_update_documentation`);
* `scripts/hotpath/doc_analyzer.py` — impact scoring
  (`prioritize_documentation`);
* `scripts/hotpath/pipeline.py` — Merkle root (`merkle_root_for_bytes`),
  MinHash/LSH helpers, label-propagation fallback;
* `scripts/update_docs_hotpath.py` — the doc-rewrite content
  transformation of `append_documentation`;
* `scripts/hotpath/pattern_matching.py` — the Aho-Corasick automaton.

Python floats only ever carry exact small integers in the distance
computations (unit edit costs, integer tree sizes), so distances are
embedded as `ℕ` and the derived ratios (normalized distance, scores,
similarities) as `ℚ`.  Python byte strings are `List ℕ`, text is
`List Char`/`String`.  Python dicts preserve insertion order and are
embedded as association lists in insertion order; Python sets have an
unspecified iteration order, and wherever an iteration order is
observable it is either taken as an explicit parameter or modelled as
insertion order (noted at each spot).
-/

section
set_option allowUnsafeReducibility true
/- Batteries marks the rational operations `@[irreducible]`, which stops
`decide` from evaluating the concrete runs below; restore the default
reducibility (this affects no statement, only unfolding). -/
attribute [semireducible] Rat.inv Rat.mul Rat.add Rat.sub Rat.ofScientific
end

namespace Muze

/-! ## semantic.py : data model -/

/-- Classification of semantic changes (`semantic.ChangeType`). -/
inductive ChangeType where
  | identical
  | refactor
  | minor
  | major
  | rewrite
deriving DecidableEq, Repr

/-- Simplified AST node (`semantic.TreeNode`): a node type, an optional
value (present only on leaves produced by the parsers), and an ordered
list of children. -/
inductive TreeNode where
  | mk (type : String) (value : Option String) (children : List TreeNode)

def TreeNode.type : TreeNode → String
  | .mk t _ _ => t

def TreeNode.value : TreeNode → Option String
  | .mk _ v _ => v

def TreeNode.children : TreeNode → List TreeNode
  | .mk _ _ c => c

mutual

/-- `TreeNode.size`: total number of nodes in the subtree. -/
def TreeNode.size : TreeNode → ℕ
  | .mk _ _ c => 1 + sizeL c

/-- Total size of a forest (sum of subtree sizes). -/
def sizeL : List TreeNode → ℕ
  | [] => 0
  | t :: ts => TreeNode.size t + sizeL ts

end

mutual

/-- `TreeNode.depth`: 1 for a leaf, otherwise 1 + max child depth. -/
def TreeNode.depth : TreeNode → ℕ
  | .mk _ _ c => if c.isEmpty then 1 else 1 + depthL c

def depthL : List TreeNode → ℕ
  | [] => 0
  | t :: ts => max (TreeNode.depth t) (depthL ts)

end

/-! ## semantic.py : fallback parser

`ASTParser._fallback_parse` — used whenever tree-sitter is unavailable
(the pipeline's default situation).  The unused `tokens` regex of the
source is dead code and omitted.  Python `str.strip` is modelled over
the ASCII whitespace characters that can actually occur in a line. -/

def isPyWs (c : Char) : Bool :=
  c = ' ' || c = '\t' || c = '\n' || c = '\r' || c = '\x0b' || c = '\x0c'

/-- Python `str.strip()` on a list of characters. -/
def pyStrip (s : List Char) : List Char :=
  ((s.dropWhile isPyWs).reverse.dropWhile isPyWs).reverse

/-- Python `str.split('\n')` (returns `[""]` on the empty string). -/
def splitLines : List Char → List (List Char)
  | [] => [[]]
  | c :: rest =>
    if c = '\n' then [] :: splitLines rest
    else
      match splitLines rest with
      | [] => [[c]]
      | l :: ls => (c :: l) :: ls

/-- Substring containment test (Python `sub in s`). -/
def containsSeq (s sub : List Char) : Bool :=
  if sub.isPrefixOf s then true
  else
    match s with
    | [] => false
    | _ :: rest => containsSeq rest sub

/-- Line classification of the fallback parser, for a stripped nonempty
line. -/
def classifyLine (language : String) (line : List Char) : String :=
  if language = "python" then
    if ("def ".toList).isPrefixOf line then "function_def"
    else if ("class ".toList).isPrefixOf line then "class_def"
    else if ("if ".toList).isPrefixOf line then "if_statement"
    else if ("for ".toList).isPrefixOf line
         || ("while ".toList).isPrefixOf line then "loop"
    else "statement"
  else if language = "javascript" || language = "typescript" then
    if containsSeq line "function".toList then "function_declaration"
    else if ("if".toList).isPrefixOf line then "if_statement"
    else if containsSeq line "for".toList
         || containsSeq line "while".toList then "loop"
    else "statement"
  else "statement"

/-- `ASTParser._fallback_parse`: split into lines, keep the first 100,
strip each, drop empty lines, classify each line and emit a flat tree
rooted at `module`; each leaf's value is the first 50 characters of the
stripped line. -/
def fallback_parse (code : String) (language : String) : TreeNode :=
  let lines := (splitLines code.toList).take 100
  let children := lines.filterMap fun line =>
    let line := pyStrip line
    if line = [] then none
    else some (TreeNode.mk (classifyLine language line)
      (some (String.mk (line.take 50))) [])
  TreeNode.mk "module" none children

/-! ## semantic.py : Zhang-Shasha tree edit distance

`ZhangShashaDistance` with the default unit costs (the only costs the
repository ever uses).  All intermediate values are integers, so the
distance is carried in `ℕ`.  The memo table of the source is a pure
caching optimisation and has no semantic content.

`_forest_distance` fills a DP table over prefixes whose recurrence peels
the *last* trees of both forests; that recurrence is embedded as `fdRev`
acting on the reversed forests (so that structural recursion peels the
same trees the DP does). -/

/-- `_tree_cost`: cost of inserting/deleting a whole subtree = its size. -/
def treeCost (t : TreeNode) : ℕ := t.size

/-- `_nodes_equal`: same type; for a pair of leaves, also same value. -/
def nodesEqual (n1 n2 : TreeNode) : Bool :=
  if n1.type ≠ n2.type then false
  else if n1.children.isEmpty && n2.children.isEmpty then
    n1.value = n2.value
  else true

theorem size_pos (t : TreeNode) : 1 ≤ t.size := by
  cases t with
  | mk ty v c => simp [TreeNode.size]

theorem sizeL_append (l1 l2 : List TreeNode) :
    sizeL (l1 ++ l2) = sizeL l1 + sizeL l2 := by
  induction l1 with
  | nil => simp [sizeL]
  | cons t ts ih => simp [sizeL, ih]; ring

theorem sizeL_reverse (l : List TreeNode) : sizeL l.reverse = sizeL l := by
  induction l with
  | nil => rfl
  | cons t ts ih => simp [sizeL, List.reverse_cons, sizeL_append, ih]; ring

theorem size_mk (ty : String) (v : Option String) (c : List TreeNode) :
    (TreeNode.mk ty v c).size = 1 + sizeL c := by
  simp [TreeNode.size]

theorem sizeL_children_lt (t : TreeNode) : sizeL t.children < t.size := by
  cases t with
  | mk ty v c =>
    simp only [TreeNode.size, TreeNode.children]
    omega

mutual

/-- `_tree_distance` on two present trees: minimum of deleting the first
root, inserting the second root, or matching/renaming the roots (rename
cost 0 when `_nodes_equal`).  The `None` base cases of the source are
unreachable from `compute`. -/
def tree_distance (t1 t2 : TreeNode) : ℕ :=
  min (min (1 + fdRev t1.children.reverse [t2])
           (1 + fdRev [t1] t2.children.reverse))
      ((if nodesEqual t1 t2 then 0 else 1)
        + fdRev t1.children.reverse t2.children.reverse)
termination_by 2 * (t1.size + t2.size)
decreasing_by
  all_goals simp only [sizeL_reverse, sizeL]
  · have h1 := sizeL_children_lt t1
    have h2 := size_pos t2
    omega
  · have h1 := sizeL_children_lt t2
    have h2 := size_pos t1
    omega
  · have h1 := sizeL_children_lt t1
    have h2 := sizeL_children_lt t2
    omega

/-- The forest DP of `_forest_distance`, acting on reversed forests: the
head of each list is the last tree of the corresponding forest, matching
the last-element peeling of the source's DP recurrence.  Boundary rows
and columns accumulate whole-subtree deletion/insertion cost. -/
def fdRev : List TreeNode → List TreeNode → ℕ
  | [], [] => 0
  | t :: ts, [] => treeCost t + fdRev ts []
  | [], t :: ts => treeCost t + fdRev [] ts
  | x :: xs, y :: ys =>
    min (min (treeCost x + fdRev xs (y :: ys))
             (treeCost y + fdRev (x :: xs) ys))
        (tree_distance x y + fdRev xs ys)
termination_by l1 l2 => 2 * (sizeL l1 + sizeL l2) + 1
decreasing_by
  all_goals simp only [sizeL_reverse, sizeL]
  · have h := size_pos t
    omega
  · have h := size_pos t
    omega
  · have h := size_pos x
    omega
  · have h := size_pos y
    omega
  · have h1 := size_pos x
    have h2 := size_pos y
    omega
  · have h1 := size_pos x
    have h2 := size_pos y
    omega

end

/-- `_forest_distance` on forests in source order. -/
def forest_distance (f1 f2 : List TreeNode) : ℕ :=
  fdRev f1.reverse f2.reverse

/-- `ZhangShashaDistance.compute`: returns the distance and the (always
empty) operation list. -/
def compute (t1 t2 : TreeNode) : ℕ × List Unit :=
  (tree_distance t1 t2, [])

/-! ## semantic.py : SemanticDiff.analyze_change -/

structure ChangeResult where
  change_type : ChangeType
  distance : ℕ
  /-- the exact normalized distance; the source additionally stores a
  copy rounded to 4 decimals, which no claim consumes -/
  normalized_distance : ℚ
  size1 : ℕ
  size2 : ℕ
  depth1 : ℕ
  depth2 : ℕ
deriving DecidableEq

/-- The classification chain of `analyze_change`. -/
def classifyChange (normalized tR tm tM : ℚ) : ChangeType :=
  if normalized < 1/1000 then .identical
  else if normalized ≤ tR then .refactor
  else if normalized ≤ tm then .minor
  else if normalized ≤ tM then .major
  else .rewrite

/-- `SemanticDiff.analyze_change` with the fallback parser (the parser
never fails, so the parse-failure branch of the source is unreachable).
`tR`, `tm`, `tM` are `threshold_refactor/minor/major`; the source's
defaults are 0.1, 0.3, 0.6. -/
def analyze_change (code1 code2 language : String) (tR tm tM : ℚ) :
    ChangeResult :=
  let t1 := fallback_parse code1 language
  let t2 := fallback_parse code2 language
  let d := tree_distance t1 t2
  let maxSize := max t1.size t2.size
  let normalized : ℚ := if 0 < maxSize then (d : ℚ) / (maxSize : ℚ) else 0
  { change_type := classifyChange normalized tR tm tM
    distance := d
    normalized_distance := normalized
    size1 := t1.size
    size2 := t2.size
    depth1 := t1.depth
    depth2 := t2.depth }

/-- `SemanticDiff.should_update_documentation`: false exactly on
identical and refactor. -/
def should_update_documentation (ct : ChangeType) : Bool :=
  if ct = .identical ∨ ct = .refactor then false else true

/-- One entry of the `changes` list assembled by
`pipeline.analyze_semantic_diff` (the fields the claims consume).  The
pipeline calls `analyze_change` with `threshold_refactor=0.1`,
`threshold_minor=settings.tree_edit_distance_threshold` and
`threshold_major=0.6`. -/
structure SemanticChange where
  path : String
  language : String
  change_type : ChangeType
  distance : ℕ
  normalized_distance : ℚ
  size_old : ℕ
  size_new : ℕ
  needs_doc_update : Bool
deriving DecidableEq

/-- The record `pipeline.analyze_semantic_diff` appends for one common
path (`tm` is `settings.tree_edit_distance_threshold`, default 0.3). -/
def mkSemanticChange (path old_code new_code language : String) (tm : ℚ) :
    SemanticChange :=
  let r := analyze_change old_code new_code language (1/10) tm (6/10)
  { path := path
    language := language
    change_type := r.change_type
    distance := r.distance
    normalized_distance := r.normalized_distance
    size_old := r.size1
    size_new := r.size2
    needs_doc_update := should_update_documentation r.change_type }

/-! ## Generic helpers: Python dicts, strings -/

/-- Lookup in an insertion-ordered association list (Python dict `[]`/
`get`). -/
def alookup {κ α : Type} [DecidableEq κ] : List (κ × α) → κ → Option α
  | [], _ => none
  | (k, v) :: rest, key => if k = key then some v else alookup rest key

/-- Dict assignment `d[key] = v`: updates in place when the key exists
(Python dicts keep the original insertion position), otherwise appends. -/
def aupdate {κ α : Type} [DecidableEq κ] :
    List (κ × α) → κ → α → List (κ × α)
  | [], key, v => [(key, v)]
  | (k, w) :: rest, key, v =>
    if k = key then (k, v) :: rest else (k, w) :: aupdate rest key v

/-- Adding an element to a Python set, modelled in insertion order. -/
def addUnique (l : List String) (x : String) : List String :=
  if l.contains x then l else l ++ [x]

/-- Python `str.lower` (per-character approximation: the identifiers and
paths handled by the pipeline fold characterwise). -/
def pyLower (s : List Char) : List Char := s.map Char.toLower

/-- Python `<` on strings: lexicographic comparison by code point. -/
def strLtL : List Char → List Char → Bool
  | [], [] => false
  | [], _ :: _ => true
  | _ :: _, [] => false
  | a :: as, b :: bs =>
    if a.toNat < b.toNat then true
    else if b.toNat < a.toNat then false
    else strLtL as bs

/-- Python `<` on `String`s. -/
def strLt (a b : String) : Bool := strLtL a.toList b.toList

/-- Python `str.upper` on a `String` (characterwise). -/
def pyUpper (s : String) : String := String.mk (s.toList.map Char.toUpper)

/-- Python `str.split(c)`. -/
def splitOnChar (sep : Char) : List Char → List (List Char)
  | [] => [[]]
  | c :: rest =>
    if c = sep then [] :: splitOnChar sep rest
    else
      match splitOnChar sep rest with
      | [] => [[c]]
      | l :: ls => (c :: l) :: ls

/-- Python `str.replace(old, new)`, fuel-indexed so that the recursion
is structural (each step consumes at least one character, so fuel equal
to the string length is never exhausted). -/
def pyReplaceF (old new : List Char) : ℕ → List Char → List Char
  | _, [] => []
  | 0, s => s
  | fuel + 1, c :: r =>
    if old ≠ [] ∧ old.isPrefixOf (c :: r) then
      new ++ pyReplaceF old new fuel ((c :: r).drop old.length)
    else c :: pyReplaceF old new fuel r

/-- Python `str.replace(old, new)` (all occurrences, scanning left to
right, never rescanning inserted text).  All call sites pass a nonempty
`old`. -/
def pyReplace (old new : List Char) (s : List Char) : List Char :=
  pyReplaceF old new s.length s

/-! ## doc_analyzer.py : prioritize_documentation

`DocumentationAnalyzer.prioritize_documentation`.  The analyzer's
`references_by_doc` field is declared as `doc -> {entity: [matches]}`;
only the length of each match list is consumed, so matches are modelled
as `Unit`.  Python-set iteration orders (a changed file's `entities`,
`all_entities`, and the per-entity doc sets in `cross_refs`) are carried
as explicit list orders. -/

inductive Priority where
  | high
  | medium
  | low
deriving DecidableEq, Repr

/-- `doc_analyzer.ChangedFile` (fields the scorer consumes). -/
structure ChangedFile where
  path : String
  change_type : String
  distance : ℚ
  normalized_distance : ℚ
  size_old : ℕ
  size_new : ℕ
  needs_doc_update : Bool
  language : Option String
  entities : List String
deriving DecidableEq

/-- `doc_analyzer.ImpactedDoc`. -/
structure ImpactedDoc where
  doc_path : String
  priority : Priority
  score : ℚ
  reasons : List String
  changed_entities : List String
  mention_counts : List (String × ℕ)
  line_numbers : List (String × List ℕ)
  community_size : ℕ
deriving DecidableEq

/-- The fields of `doc_analyzer.AnalysisResult` that
`prioritize_documentation` reads. -/
structure Analysis where
  changed_files : List ChangedFile
  communities : List (List String)
  community_map : List (String × ℕ)
  cross_refs : List (String × List String)
  references_by_doc : List (String × List (String × List Unit))
  all_entities : List String
deriving DecidableEq

/-- The `severity_scores` table of `prioritize_documentation`. -/
def severity_scores : List (String × ℕ) :=
  [("identical", 0), ("refactor", 0), ("minor", 1), ("major", 3),
   ("rewrite", 5)]

/-- Per-doc accumulator (`doc_impacts[doc_path]`). -/
structure ImpactData where
  entities : List String
  severity_sum : ℕ
  mention_counts : List (String × ℕ)
  line_numbers : List (String × List ℕ)
  reasons : List String
deriving DecidableEq

/-- An empty accumulator entry. -/
def emptyImpact : ImpactData :=
  { entities := [], severity_sum := 0, mention_counts := [],
    line_numbers := [], reasons := [] }

/-- Floor of a rational as an explicitly computable integer. -/
def qFloor (q : ℚ) : ℤ := q.num.fdiv (q.den : ℤ)

/-- Round half to even, as CPython's float formatting does. -/
def qRoundEven (q : ℚ) : ℤ :=
  let f := qFloor q
  let frac := q - (f : ℚ)
  if frac < 1/2 then f
  else if 1/2 < frac then f + 1
  else if f % 2 = 0 then f else f + 1

/-- Renders a rational with two decimals (approximates CPython's
`:.2f`; no claim consumes the `reasons` strings built from it). -/
def fmt2 (q : ℚ) : String :=
  let n : ℤ := qRoundEven (q * 100)
  let m := n.natAbs
  (if n < 0 then "-" else "") ++ toString (m / 100) ++ "." ++
    (if m % 100 < 10 then "0" else "") ++ toString (m % 100)

/-- The reason line appended for a `(file, entity, doc)` hit. -/
def reasonLine (entity : String) (cf : ChangedFile) : String :=
  entity ++ ": " ++ pyUpper cf.change_type ++ " change (distance: "
    ++ fmt2 cf.normalized_distance ++ ")"

/-- `file_basename`: last path component with `.py`, `.js`, `.ts`
stripped (Python `str.replace`, all occurrences). -/
def fileBasename (path : String) : List Char :=
  let base := (splitOnChar '/' path.toList).getLastD []
  pyReplace ".ts".toList [] (pyReplace ".js".toList []
    (pyReplace ".py".toList [] base))

/-- `entities_in_file`: the file's own entities plus every known entity
whose lowercase form contains or is contained in the lowercase file
basename. -/
def entitiesInFile (cf : ChangedFile) (all_entities : List String) :
    List String :=
  let s0 := cf.entities.foldl addUnique []
  let fb := pyLower (fileBasename cf.path)
  all_entities.foldl (fun acc e =>
    if containsSeq (pyLower e.toList) fb
        || containsSeq fb (pyLower e.toList) then addUnique acc e
    else acc) s0

/-- Accumulate one `(file, entity, doc)` hit into `doc_impacts`. -/
def addImpact (analysis : Analysis) (cf : ChangedFile) (severity : ℕ)
    (entity : String) (impacts : List (String × ImpactData))
    (doc_path : String) : List (String × ImpactData) :=
  let cur := (alookup impacts doc_path).getD emptyImpact
  let docRefs := alookup analysis.references_by_doc doc_path
  let mention_count :=
    match docRefs with
    | none => 0
    | some m => ((alookup m entity).getD []).length
  let line_nums :=
    match docRefs with
    | none => []
    | some m =>
      match alookup m entity with
      | none => []
      | some _ => (List.range mention_count).map (· + 1)
  aupdate impacts doc_path
    { entities := addUnique cur.entities entity
      severity_sum := cur.severity_sum + severity
      mention_counts := aupdate cur.mention_counts entity mention_count
      line_numbers := aupdate cur.line_numbers entity line_nums
      reasons := cur.reasons ++ [reasonLine entity cf] }

/-- Process one changed file of the `doc_impacts` accumulation loop. -/
def processChangedFile (analysis : Analysis)
    (impacts : List (String × ImpactData)) (cf : ChangedFile) :
    List (String × ImpactData) :=
  if cf.needs_doc_update = false then impacts
  else
    let severity := (alookup severity_scores cf.change_type).getD 1
    (entitiesInFile cf analysis.all_entities).foldl (fun impacts entity =>
      match alookup analysis.cross_refs entity with
      | none => impacts
      | some docs => docs.foldl (addImpact analysis cf severity entity)
          impacts) impacts

/-- The full `doc_impacts` accumulation (insertion-ordered). -/
def docImpacts (analysis : Analysis) : List (String × ImpactData) :=
  analysis.changed_files.foldl (processChangedFile analysis) []

/-- Community size: max size over the communities of the doc's
entities. -/
def communitySizeOf (analysis : Analysis) (entities : List String) : ℕ :=
  entities.foldl (fun cs e =>
    match alookup analysis.community_map e with
    | none => cs
    | some idx =>
      if idx < analysis.communities.length then
        max cs ((analysis.communities.getD idx []).length)
      else cs) 0

/-- Build one `ImpactedDoc` from an accumulator entry: the scoring
formula `score = avg_severity*2 + total_mentions*1.5 +
community_size*0.5` and the priority thresholds. -/
def mkImpactedDoc (analysis : Analysis) (p : String × ImpactData) :
    ImpactedDoc :=
  let entities := p.2.entities
  let community_size := communitySizeOf analysis entities
  let avg_severity : ℚ := (p.2.severity_sum : ℚ) / (max entities.length 1 : ℚ)
  let total_mentions : ℕ := (p.2.mention_counts.map (·.2)).sum
  let score : ℚ := avg_severity * 2 + (total_mentions : ℚ) * (3/2)
      + (community_size : ℚ) * (1/2)
  { doc_path := p.1
    priority := if 5 < score then .high
                else if 2 ≤ score then .medium
                else .low
    score := score
    reasons := p.2.reasons
    changed_entities := entities
    mention_counts := p.2.mention_counts
    line_numbers := p.2.line_numbers
    community_size := community_size }

/-- Stable insertion of `impacted_docs.sort(key=score, reverse=True)`:
the new element lands after every element of score greater or equal, so
equal scores keep the original order, exactly like Python's stable
sort. -/
def insertDesc (x : ImpactedDoc) : List ImpactedDoc → List ImpactedDoc
  | [] => [x]
  | y :: ys => if x.score ≤ y.score then y :: insertDesc x ys
               else x :: y :: ys

/-- Stable sort by score descending (any stable sort is extensionally
equal to Python's). -/
def sortByScoreDesc (l : List ImpactedDoc) : List ImpactedDoc :=
  l.foldl (fun acc x => insertDesc x acc) []

/-- `DocumentationAnalyzer.prioritize_documentation`. -/
def prioritize_documentation (analysis : Analysis) : List ImpactedDoc :=
  sortByScoreDesc ((docImpacts analysis).map (mkImpactedDoc analysis))

/-! ## pipeline.py : label propagation fallback

`_label_propagation_fallback(adj, max_iter=10, seed=42)`.  The
per-round `rnd.shuffle(nodes)` (Mersenne Twister, fixed seed) is taken
as an explicit parameter `orders : ℕ → List String` giving round `r`'s
processing order; the per-node update rule and the stopping behaviour
are independent of it.  `adj` values are Python sets of neighbours,
carried in iteration order; every neighbour is a key of `adj` (the
caller symmetrizes), so the `labels[nb]` lookup is total. -/

/-- Neighbour label counts (`defaultdict(int)` in insertion order). -/
def lpCounts (labels : List (String × String)) (nbrs : List String) :
    List (String × ℕ) :=
  nbrs.foldl (fun counts nb =>
    let lab := (alookup labels nb).getD ""
    aupdate counts lab (((alookup counts lab).getD 0) + 1)) []

/-- One comparison step of `max(counts.items(), key=(count, label))`:
replace the current best when the candidate is strictly greater in the
lexicographic `(count, label)` order (Python string comparison). -/
def pickMax (best q : String × ℕ) : String × ℕ :=
  if best.2 < q.2 ∨ (best.2 = q.2 ∧ strLt best.1 q.1 = true) then q
  else best

/-- `max(counts.items(), key=lambda kv: (kv[1], kv[0]))`.  The empty
case is unreachable (guarded by `if not counts`). -/
def bestPair : List (String × ℕ) → String × ℕ
  | [] => ("", 0)
  | p :: rest => rest.foldl pickMax p

/-- Process one node of a propagation round: update its label to the
best neighbour label, counting a change when the label differs. -/
def lpStep (adj : List (String × List String))
    (st : List (String × String) × ℕ) (n : String) :
    List (String × String) × ℕ :=
  if lpCounts st.1 ((alookup adj n).getD []) = [] then st
  else if (alookup st.1 n).getD ""
      ≠ (bestPair (lpCounts st.1 ((alookup adj n).getD []))).1 then
    (aupdate st.1 n (bestPair (lpCounts st.1 ((alookup adj n).getD []))).1,
      st.2 + 1)
  else st

/-- One round over the shuffled node order; labels are updated in place
as the round progresses (the source mutates `labels` inside the loop). -/
def run_round (adj : List (String × List String))
    (labels : List (String × String)) (order : List String) :
    List (String × String) × ℕ :=
  order.foldl (lpStep adj) (labels, 0)

/-- The `for _ in range(max_iter)` loop with early exit when a round
changes nothing. -/
def lpLoop (adj : List (String × List String)) (orders : ℕ → List String) :
    ℕ → ℕ → List (String × String) → List (String × String)
  | 0, _, labels => labels
  | fuel + 1, r, labels =>
    let res := run_round adj labels (orders r)
    if res.2 = 0 then res.1 else lpLoop adj orders fuel (r + 1) res.1

/-- Initial labels: every node labels itself. -/
def initLabelsLP (adj : List (String × List String)) :
    List (String × String) :=
  adj.map (fun p => (p.1, p.1))

/-- `_label_propagation_fallback` with `max_iter = 10`. -/
def label_propagation_fallback (adj : List (String × List String))
    (orders : ℕ → List String) : List (String × String) :=
  lpLoop adj orders 10 0 (initLabelsLP adj)

/-- Modelled from the spec's words, for comparison with `bestPair`: the
most-common neighbour label with deterministic tie-break "(count desc,
label asc)", i.e. the smallest label among those of maximal count. -/
def specBestLabelSmallest : List (String × ℕ) → String
  | [] => ""
  | p :: rest => (rest.foldl (fun best q =>
      if best.2 < q.2 ∨ (best.2 = q.2 ∧ strLt q.1 best.1 = true) then q
      else best) p).1

/-! ## Concrete run for the scorer claims -/

/-- A concrete analysis: two changed files, each owning one entity that
one doc mentions; `docB`'s file comes first in `changed_files`. -/
def exampleAnalysis : Analysis :=
  { changed_files :=
      [{ path := "beta.py", change_type := "major", distance := 3,
         normalized_distance := 1/2, size_old := 6, size_new := 6,
         needs_doc_update := true, language := some "python",
         entities := ["e1"] },
       { path := "alpha.py", change_type := "major", distance := 3,
         normalized_distance := 1/2, size_old := 6, size_new := 6,
         needs_doc_update := true, language := some "python",
         entities := ["e2"] }]
    communities := []
    community_map := []
    cross_refs := [("e1", ["docB"]), ("e2", ["docA"])]
    references_by_doc := []
    all_entities := [] }

/-- The concrete adjacency for the label-propagation claim: `c` has the
two isolated neighbours `a` and `b`, whose labels tie at count 1. -/
def adjEx : List (String × List String) :=
  [("a", []), ("b", []), ("c", ["a", "b"])]

/-- A concrete processing order for every round. -/
def ordersEx : ℕ → List String := fun _ => ["a", "b", "c"]

/-! ## pipeline.py : Merkle root

`merkle_root_for_bytes(data, chunk_size)`.  Bytes are `List ℕ` and
SHA-256 is an abstract digest function `H : List ℕ → List ℕ` (the source
finally hex-encodes the root digest; any encoding preserves the
equalities below, so roots are compared as digests).  Loops are
fuel-indexed with fuel that is provably never exhausted so that all
definitions stay kernel-computable. -/

/-- The `_chunks` generator: fixed-size slices `data[i : i+size]`.  Fuel
is the byte count; each step consumes `size ≥ 1` bytes (the source
raises on `size = 0`, which callers never pass). -/
def chunksF (size : ℕ) : ℕ → List ℕ → List (List ℕ)
  | _, [] => []
  | 0, _ => []
  | fuel + 1, data => data.take size :: chunksF size fuel (data.drop size)

def chunksOf (size : ℕ) (data : List ℕ) : List (List ℕ) :=
  chunksF size data.length data

/-- One pass of the `while len(layer) > 1` loop: hash consecutive pairs,
duplicating the last node when the fanout is odd. -/
def combineLevel (H : List ℕ → List ℕ) : List (List ℕ) → List (List ℕ)
  | [] => []
  | [a] => [H (a ++ a)]
  | a :: b :: rest => H (a ++ b) :: combineLevel H rest

/-- The full layer-reduction loop, fuel-indexed (each pass at least
halves a layer of length ≥ 2, so fuel = initial length suffices). -/
def reduceF (H : List ℕ → List ℕ) : ℕ → List (List ℕ) → List ℕ
  | _, [] => []
  | _, [x] => x
  | 0, l => l.headD []
  | fuel + 1, l => reduceF H fuel (combineLevel H l)

def reduceLayers (H : List ℕ → List ℕ) (l : List (List ℕ)) : List ℕ :=
  reduceF H l.length l

/-- `merkle_root_for_bytes`: `(root digest, number of chunks)`. -/
def merkle_root_for_bytes (H : List ℕ → List ℕ) (data : List ℕ)
    (chunk_size : ℕ) : List ℕ × ℕ :=
  if data = [] then (H [], 0)
  else
    let leaves := (chunksOf chunk_size data).map H
    match leaves with
    | [l] => (H l, 1)
    | _ => (H (reduceLayers H leaves), leaves.length)

/-! ## pipeline.py : MinHash + LSH helpers

`_file_tokens_from_bytes`, `_minhash_signature`, `_sig_similarity`,
`_lsh_candidates`.  The blake2b 8-byte fingerprint is an abstract
`Hb : List ℕ → ℕ`.  The candidate set (a Python set of ordered pairs) is
carried as an insertion-ordered duplicate-free list. -/

/-- The shingling loop over the stride-spaced window start indices:
dedup-insert each fingerprint, stopping once `max_tokens` distinct
tokens were collected (the Python `break` fires after the insertion). -/
def tokensLoop (Hb : List ℕ → ℕ) (data : List ℕ) (window maxTokens : ℕ) :
    List ℕ → List ℕ → List ℕ
  | [], acc => acc
  | i :: rest, acc =>
    let h := Hb ((data.drop i).take window)
    let acc' := if acc.contains h then acc else acc ++ [h]
    if maxTokens ≤ acc'.length then acc'
    else tokensLoop Hb data window maxTokens rest acc'

/-- `_file_tokens_from_bytes`: empty for empty data, nonpositive window
or data shorter than the window; otherwise the fingerprints of the
windows starting at `0, stride, …` with `stride = max 1 (window / 4)`. -/
def file_tokens_from_bytes (Hb : List ℕ → ℕ) (data : List ℕ)
    (window maxTokens : ℕ) : List ℕ :=
  if data = [] ∨ window ≤ 0 ∨ data.length < window then []
  else
    let stride := max 1 (window / 4)
    let idxs := (List.range ((data.length - window) / stride + 1)).map
      (· * stride)
    tokensLoop Hb data window maxTokens idxs []

/-- `_minhash_signature`: the empty token set signs as the constant
vector `P - 1`; otherwise the positionwise minimum of
`(aᵢ·x + bᵢ) mod P` over the tokens (the caller always supplies `a` and
`b` of equal length `num_perm`). -/
def minhash_signature (tokens : List ℕ) (a b : List ℕ) (P : ℕ) :
    List ℕ :=
  if tokens = [] then a.map (fun _ => P - 1)
  else
    tokens.foldl (fun sig x =>
      List.zipWith (fun (ab : ℕ × ℕ) s => min s ((ab.1 * x + ab.2) % P))
        (a.zip b) sig)
      (a.map (fun _ => P - 1))

/-- `_sig_similarity`: fraction of equal positions; 0 for empty or
length-mismatched signatures. -/
def sig_similarity (sa sb : List ℕ) : ℚ :=
  if sa = [] ∨ sb = [] ∨ sa.length ≠ sb.length then 0
  else
    (((List.zip sa sb).countP (fun p => decide (p.1 = p.2)) : ℕ) : ℚ)
      / (sa.length : ℚ)

/-- Append a file id to a band bucket (`buckets[key].append(fid)`). -/
def bucketAdd (bks : List ((ℕ × List ℕ) × List String))
    (key : ℕ × List ℕ) (fid : String) :
    List ((ℕ × List ℕ) × List String) :=
  aupdate bks key (((alookup bks key).getD []) ++ [fid])

/-- The per-file band loop: for each band index slice the signature,
stopping at the first empty slice (the Python `break`). -/
def bandLoop (sig : List ℕ) (rows : ℕ) (fid : String) :
    ℕ → ℕ → List ((ℕ × List ℕ) × List String)
      → List ((ℕ × List ℕ) × List String)
  | 0, _, bks => bks
  | n + 1, bidx, bks =>
    let start := bidx * rows
    let stop := min (start + rows) sig.length
    if stop ≤ start then bks
    else bandLoop sig rows fid n (bidx + 1)
      (bucketAdd bks (bidx, (sig.drop start).take (stop - start)) fid)

/-- Ordered pair as the source builds it: `(min, max)` in Python string
order. -/
def orderPair (x y : String) : String × String :=
  if strLt y x then (y, x) else (x, y)

/-- All `i < j` pairs of a bucket's id list, each ordered. -/
def allPairs : List String → List (String × String)
  | [] => []
  | x :: rest => rest.map (orderPair x) ++ allPairs rest

/-- Python `set.add` on the pair set, in insertion order. -/
def addPair (pairs : List (String × String)) (p : String × String) :
    List (String × String) :=
  if pairs.contains p then pairs else pairs ++ [p]

/-- `_lsh_candidates`: band the signatures into buckets, then collect
every unordered pair sharing a bucket.  `rows_per_band` is reduced to
`max 1 (k / max 1 num_bands)` when the banding would overrun the
signature length `k`. -/
def lsh_candidates (signatures : List (String × List ℕ))
    (num_bands rows_per_band : ℕ) : List (String × String) :=
  match signatures with
  | [] => []
  | (_, s0) :: _ =>
    let k := s0.length
    if k = 0 then []
    else
      let rows := if k < num_bands * rows_per_band
        then max 1 (k / max 1 num_bands) else rows_per_band
      let buckets := signatures.foldl
        (fun bks fs => bandLoop fs.2 rows fs.1 num_bands 0 bks) []
      buckets.foldl (fun pairs kv => (allPairs kv.2).foldl addPair pairs) []

/-! ## update_docs_hotpath.py : append_documentation

The pure content transformation of `append_documentation` (the
file-system read/write around it is not modelled): ensure an
`## API Reference` heading, then for each generated section either
replace the existing entity section found by the regex
`(^|\n)(###+)\s+entity\s*\n(.*?)(?=\n##|\n###|\Z)` (IGNORECASE,
DOTALL), or insert after the `## API Reference` heading, or append at
the end.  The regex is embedded as a specialised matcher with Python
`re` semantics: leftmost match, greedy `###+` and `\s+` and `\s*` with
backtracking, lazy body up to the lookahead, `^` only at the start of
the text (no MULTILINE). -/

/-- Length of the maximal run of character `c` at the front. -/
def countRun (c : Char) : List Char → ℕ
  | [] => 0
  | x :: r => if x = c then countRun c r + 1 else 0

/-- Length of the maximal whitespace run at the front (regex `\s*`
before backtracking). -/
def wsRun : List Char → ℕ
  | [] => 0
  | x :: r => if isPyWs x then wsRun r + 1 else 0

/-- Case-insensitive prefix test (`re.IGNORECASE` literal match). -/
def iPrefix : List Char → List Char → Bool
  | [], _ => true
  | _ :: _, [] => false
  | p :: ps, s :: ss => (p.toLower = s.toLower) && iPrefix ps ss

/-- Regex `\s*\n` matched greedily at the front: `\s*` consumes the
whitespace run, then backtracks until the next character is a newline —
so the match consumes the whitespace prefix up to and including its
last newline.  `none` when the whitespace run contains no newline. -/
def wsStarNl : List Char → Option ℕ
  | [] => none
  | x :: r =>
    if isPyWs x then
      match wsStarNl r with
      | some k => some (k + 1)
      | none => if x = '\n' then some 1 else none
    else none

/-- Regex `\s+entity`, greedy with backtracking: try the longest
whitespace split first, then shorter ones (never zero).  Returns the
total number of characters consumed. -/
def wsEntTry (entity l : List Char) : ℕ → Option ℕ
  | 0 => none
  | k + 1 =>
    if iPrefix entity (l.drop (k + 1)) then some ((k + 1) + entity.length)
    else wsEntTry entity l k

def wsPlusEntity (entity l : List Char) : Option ℕ :=
  wsEntTry entity l (wsRun l)

/-- Regex `(###+)\s+entity\s*\n` at the front of `l`: the `#` run must
be at least 3 long and is consumed entirely (shorter greedy splits
leave a `#`, which `\s+` cannot match).  Returns
`(consumed, heading length)`. -/
def secMatchFrom (entity l : List Char) : Option (ℕ × ℕ) :=
  let h := countRun '#' l
  if h < 3 then none
  else
    match wsPlusEntity entity (l.drop h) with
    | none => none
    | some k1 =>
      match wsStarNl (l.drop (h + k1)) with
      | none => none
      | some k2 => some (h + k1 + k2, h)

/-- Lazy body `(.*?)(?=\n##|\n###|\Z)` (DOTALL): number of characters
up to the first position where the text starts with `"\n##"` (which
subsumes `"\n###"`), or to the end of the text. -/
def bodyEnd : List Char → ℕ
  | [] => 0
  | c :: r =>
    if c = '\n' && ['#', '#'].isPrefixOf r then 0
    else bodyEnd r + 1

/-- One attempt of the section pattern with the `(^|\n)` boundary
already consumed and the lazy body appended: `l` starts at the
heading's `#` run.  Returns `(consumed, heading length)`. -/
def secTryCore (entity l : List Char) : Option (ℕ × ℕ) :=
  match secMatchFrom entity l with
  | none => none
  | some (len, h) => some (len + bodyEnd (l.drop len), h)

/-- Attempt of the full pattern at absolute position `i` (suffix `l`):
the `^` alternative applies only at position 0, the `\n` alternative
consumes a literal newline. -/
def secTryAt (entity : List Char) (i : ℕ) (l : List Char) :
    Option (ℕ × ℕ) :=
  if i = 0 then
    match secTryCore entity l with
    | some (len, h) => some (len, h)
    | none =>
      match l with
      | c :: r =>
        if c = '\n' then
          (secTryCore entity r).map (fun p => (p.1 + 1, p.2))
        else none
      | [] => none
  else
    match l with
    | c :: r =>
      if c = '\n' then
        (secTryCore entity r).map (fun p => (p.1 + 1, p.2))
      else none
    | [] => none

/-- `re.search` scan of the section pattern: try each start position in
increasing order; report `(start, end, heading length)` of the first
match. -/
def secSearchAux (entity : List Char) : ℕ → ℕ → List Char →
    Option (ℕ × ℕ × ℕ)
  | 0, _, _ => none
  | fuel + 1, i, l =>
    match secTryAt entity i l with
    | some (len, h) => some (i, i + len, h)
    | none =>
      match l with
      | [] => none
      | _ :: r => secSearchAux entity fuel (i + 1) r

def secSearch (entity t : List Char) : Option (ℕ × ℕ × ℕ) :=
  secSearchAux entity (t.length + 1) 0 t

/-- `re.search(r"## API Reference\s*\n", ...)`: first position whose
suffix matches the literal followed by `\s*\n`; returns the end index
of the match. -/
def apiSearchAux : ℕ → ℕ → List Char → Option ℕ
  | 0, _, _ => none
  | fuel + 1, i, l =>
    match
      (if ("## API Reference".toList).isPrefixOf l then
        (wsStarNl (l.drop 16)).map (fun k => i + 16 + k)
      else none) with
    | some e => some e
    | none =>
      match l with
      | [] => none
      | _ :: r => apiSearchAux fuel (i + 1) r

def apiRefSearchEnd (t : List Char) : Option ℕ :=
  apiSearchAux (t.length + 1) 0 t

/-- One generated section handed to `append_documentation`. -/
structure DocSection where
  entity : List Char
  file : List Char
  content : List Char

/-- `new_section` built for appending. -/
def mkNewSection (s : DocSection) : List Char :=
  ("### ".toList) ++ s.entity ++ ("\n\n*Source: `".toList) ++ s.file
    ++ ("`*\n\n".toList) ++ s.content

/-- `replacement` built when an existing section is found, reusing the
found heading level `h`. -/
def mkReplacement (h : ℕ) (s : DocSection) : List Char :=
  ['\n'] ++ List.replicate h '#' ++ [' '] ++ s.entity
    ++ ("\n\n*Source: `".toList) ++ s.file ++ ("`*\n\n".toList)
    ++ s.content

/-- Python slice `t[i:j]`. -/
def sliceL (t : List Char) (i j : ℕ) : List Char := (t.take j).drop i

/-- The per-section body of `append_documentation`'s loop: replace the
matched section everywhere (`str.replace` replaces every occurrence),
else insert after the `## API Reference` heading, else append at the
end. -/
def processDocSection (nc : List Char) (s : DocSection) : List Char :=
  match secSearch s.entity nc with
  | some (i, j, h) => pyReplace (sliceL nc i j) (mkReplacement h s) nc
  | none =>
    match apiRefSearchEnd nc with
    | some e =>
      nc.take e ++ ['\n'] ++ mkNewSection s ++ ("\n\n".toList)
        ++ nc.drop e
    | none => nc ++ ['\n'] ++ mkNewSection s ++ ("\n\n".toList)

/-- The pure content transformation of `append_documentation`: ensure
the `## API Reference` heading exists, then process each section in
order. -/
def append_documentation_content (existing : List Char)
    (sections : List DocSection) : List Char :=
  let ex := if containsSeq existing ("## API Reference".toList)
    then existing
    else existing ++ ("\n\n## API Reference\n\n".toList)
  sections.foldl processDocSection ex

/-- Example fixture for the idempotence claim: a minimal pre-existing
doc and a single generated section. -/
def docD0 : List Char := "# Doc\n".toList

def docSec0 : DocSection :=
  ⟨"foo".toList, "a.py".toList, "Does stuff.".toList⟩

/-- One write of the fixture section into a doc content. -/
def docWrite (d : List Char) : List Char :=
  append_documentation_content d [docSec0]

/-! ## pattern_matching.py : AhoCorasick

`AhoCorasick.__init__` / `_build_trie` / `_build_failure_links` /
`search`, in the default case-insensitive mode.  The trie is represented
by its node path strings (one node per distinct pattern prefix), the
BFS-computed failure links by the recurrence they satisfy on path
strings, and the search loop as a scan emitting
`(pattern, start, end)` triples; the unused `line_number` and `context`
fields of `Match` are not modelled. -/

/-- Trie membership: `s` is a node of the Aho-Corasick trie iff it is
the empty root path or a prefix of some pattern (`_build_trie` creates
exactly one node per distinct pattern prefix). -/
def isNode (P : List (List Char)) (s : List Char) : Bool :=
  s.isEmpty || P.any (fun p => s.isPrefixOf p)

/-- Longest suffix of `s` that is a trie node (`[]` when only the empty
suffix is).  Specification value of the failure link of a node `x`
applied at `s = x.drop 1`. -/
def lnsSpec (P : List (List Char)) : List Char → List Char
  | [] => []
  | c :: r => if isNode P (c :: r) then c :: r else lnsSpec P r

/-- Longest suffix `u` of `f` with `u ++ [a]` a trie node, returned as
`u ++ [a]` (`[]` when there is none).  Specification value of the
goto-with-failure climb from node `f` on character `a`. -/
def lnsExt (P : List (List Char)) : List Char → Char → List Char
  | [], a => if isNode P [a] then [a] else []
  | c :: r, a =>
    if isNode P ((c :: r) ++ [a]) then (c :: r) ++ [a] else lnsExt P r a

/-- Last character of a path string (`' '` for the root; only applied
to nonempty paths). -/
def lastD (d : Char) : List Char → Char
  | [] => d
  | [c] => c
  | _ :: c :: r => lastD d (c :: r)

mutual

/-- `_build_failure_links`, as the recurrence it computes on node path
strings: a node of depth ≤ 1 fails to the root; a node `s' ++ [a]`
fails to the result of climbing the failure chain of `s'` looking for
an `a`-child (`chaseRec`).  Fuel-indexed; `acFail` supplies enough
fuel. -/
def failRec (P : List (List Char)) : ℕ → List Char → List Char
  | 0, _ => []
  | fuel + 1, s =>
    if s.length ≤ 1 then []
    else chaseRec P fuel (failRec P fuel s.dropLast) (lastD ' ' s)

/-- The climb inside `_build_failure_links`: starting at failure node
`f`, follow failure links while there is no `a`-child; descend to the
`a`-child if one exists, otherwise stop at the root. -/
def chaseRec (P : List (List Char)) : ℕ → List Char → Char → List Char
  | 0, _, _ => []
  | fuel + 1, f, a =>
    if isNode P (f ++ [a]) then f ++ [a]
    else if f.isEmpty then []
    else chaseRec P fuel (failRec P fuel f) a

end

def acFail (P : List (List Char)) (s : List Char) : List Char :=
  failRec P (2 * s.length + 1) s

/-- The `search` loop's per-character transition: follow failure links
while the current node has no `char`-child, then descend if a child
exists. -/
def deltaRec (P : List (List Char)) : ℕ → List Char → Char → List Char
  | 0, _, _ => []
  | fuel + 1, st, c =>
    if st.isEmpty then (if isNode P [c] then [c] else [])
    else if isNode P (st ++ [c]) then st ++ [c]
    else deltaRec P fuel (acFail P st) c

def acDelta (P : List (List Char)) (st : List Char) (c : Char) :
    List Char :=
  deltaRec P (st.length + 1) st c

/-- The trie-construction part of a node's output list: every pattern
whose path ends at this node, in pattern-list order (empty patterns are
skipped by `_build_trie`). -/
def trieOut (P : List (List Char)) (s : List Char) : List (List Char) :=
  if s.isEmpty then [] else P.filter (fun p => p = s)

/-- A node's final output list: its own patterns followed by the
already-final output list of its failure node (`_build_failure_links`
extends in BFS order, so the failure node's list is final when
merged). -/
def outRec (P : List (List Char)) : ℕ → List Char → List (List Char)
  | 0, _ => []
  | fuel + 1, s =>
    if s.isEmpty then [] else trieOut P s ++ outRec P fuel (acFail P s)

def acOut (P : List (List Char)) (s : List Char) : List (List Char) :=
  outRec P (s.length + 1) s

/-- The `search` scan: at text position `i` with character `c`, move to
the next node and emit `(pattern, i - len + 1, i + 1)` for every
pattern in the node's output list (line numbers and context windows are
not modelled: the claim is about pattern, start and end). -/
def acSearchGo (P : List (List Char)) :
    List Char → ℕ → List Char → List (List Char × ℕ × ℕ)
  | _, _, [] => []
  | st, i, c :: rest =>
    (acOut P (acDelta P st c)).map (fun p => (p, i + 1 - p.length, i + 1))
      ++ acSearchGo P (acDelta P st c) (i + 1) rest

def acRun (P : List (List Char)) (t : List Char) :
    List (List Char × ℕ × ℕ) :=
  acSearchGo P [] 0 t

/-- `AhoCorasick(patterns).search(text)` in the default case-insensitive
mode: patterns and text are lowercased first, and reported matches
carry the lowercased pattern. -/
def ac_search (patterns : List (List Char)) (t : List Char) :
    List (List Char × ℕ × ℕ) :=
  acRun (patterns.map pyLower) (pyLower t)

/-- Spec-side definition (for the byte-offset refinement comparison
only): the UTF-8 encoded size of a character. -/
def specUtf8Size (c : Char) : ℕ :=
  if c.toNat < 0x80 then 1
  else if c.toNat < 0x800 then 2
  else if c.toNat < 0x10000 then 3
  else 4

/-- Spec-side definition: the byte offset of code-point index `i` in
the UTF-8 encoding of `t`. -/
def specByteOffset (t : List Char) (i : ℕ) : ℕ :=
  ((t.take i).map specUtf8Size).sum

/-- Occurrence count of an element in a list (used to state the
exactly-once property). -/
def countL {α : Type} [DecidableEq α] (l : List α) (a : α) : ℕ :=
  l.countP (fun x => decide (x = a))

end Muze

/-! # Theorems -/

namespace Muze

theorem classifyChange_iff (d : ℚ) :
    (classifyChange d (1/10) (3/10) (6/10) = .identical ↔ d < 1/1000)
    ∧ (classifyChange d (1/10) (3/10) (6/10) = .refactor ↔
        1/1000 ≤ d ∧ d ≤ 1/10)
    ∧ (classifyChange d (1/10) (3/10) (6/10) = .minor ↔
        1/10 < d ∧ d ≤ 3/10)
    ∧ (classifyChange d (1/10) (3/10) (6/10) = .major ↔
        3/10 < d ∧ d ≤ 6/10)
    ∧ (classifyChange d (1/10) (3/10) (6/10) = .rewrite ↔ 6/10 < d) := by
  unfold classifyChange
  split_ifs with h1 h2 h3 h4 <;>
    refine ⟨?_, ?_, ?_, ?_, ?_⟩ <;> constructor <;>
    intro h <;> first
      | rfl
      | (constructor <;> linarith)
      | linarith
      | simp_all

/-- C3.  Change classification thresholds: for every pair of inputs
(the fallback parser parses everything), with `d` the normalized
distance (distance over the larger tree size) and the default
thresholds, `analyze_change` classifies `identical` iff `d < 0.001`,
`refactor` iff `0.001 ≤ d ≤ 0.1`, `minor` iff `0.1 < d ≤ 0.3`, `major`
iff `0.3 < d ≤ 0.6`, and `rewrite` iff `d > 0.6`. -/
theorem change_classification_thresholds (code1 code2 language : String) :
    ((analyze_change code1 code2 language (1/10) (3/10) (6/10)).change_type
        = .identical
      ↔ (analyze_change code1 code2 language
          (1/10) (3/10) (6/10)).normalized_distance < 1/1000)
    ∧ ((analyze_change code1 code2 language (1/10) (3/10) (6/10)).change_type
        = .refactor
      ↔ 1/1000 ≤ (analyze_change code1 code2 language
            (1/10) (3/10) (6/10)).normalized_distance
        ∧ (analyze_change code1 code2 language
            (1/10) (3/10) (6/10)).normalized_distance ≤ 1/10)
    ∧ ((analyze_change code1 code2 language (1/10) (3/10) (6/10)).change_type
        = .minor
      ↔ 1/10 < (analyze_change code1 code2 language
            (1/10) (3/10) (6/10)).normalized_distance
        ∧ (analyze_change code1 code2 language
            (1/10) (3/10) (6/10)).normalized_distance ≤ 3/10)
    ∧ ((analyze_change code1 code2 language (1/10) (3/10) (6/10)).change_type
        = .major
      ↔ 3/10 < (analyze_change code1 code2 language
            (1/10) (3/10) (6/10)).normalized_distance
        ∧ (analyze_change code1 code2 language
            (1/10) (3/10) (6/10)).normalized_distance ≤ 6/10)
    ∧ ((analyze_change code1 code2 language (1/10) (3/10) (6/10)).change_type
        = .rewrite
      ↔ 6/10 < (analyze_change code1 code2 language
          (1/10) (3/10) (6/10)).normalized_distance) := by
  have h : (analyze_change code1 code2 language
        (1/10) (3/10) (6/10)).change_type
      = classifyChange (analyze_change code1 code2 language
          (1/10) (3/10) (6/10)).normalized_distance
        (1/10) (3/10) (6/10) := rfl
  rw [h]
  exact classifyChange_iff _

/-- C4.  Needs-doc equivalence: `should_update_documentation` is false
exactly on identical/refactor, and the `needs_doc_update` field the
pipeline derives from it is true iff the change type is minor, major or
rewrite. -/
theorem needs_doc_update_iff :
    (∀ ct : ChangeType, should_update_documentation ct = true ↔
      (ct = .minor ∨ ct = .major ∨ ct = .rewrite))
    ∧ (∀ path old_code new_code language : String, ∀ tm : ℚ,
      (mkSemanticChange path old_code new_code language tm).needs_doc_update
        = true ↔
      ((mkSemanticChange path old_code new_code language tm).change_type
          = .minor
        ∨ (mkSemanticChange path old_code new_code language tm).change_type
          = .major
        ∨ (mkSemanticChange path old_code new_code language tm).change_type
          = .rewrite)) := by
  constructor
  · intro ct; cases ct <;> simp [should_update_documentation]
  · intro path oc nc lang tm
    have h : ∀ ct : ChangeType, should_update_documentation ct = true ↔
        (ct = .minor ∨ ct = .major ∨ ct = .rewrite) := by
      intro ct; cases ct <;> simp [should_update_documentation]
    exact h _

theorem nodesEqual_self (t : TreeNode) : nodesEqual t t = true := by
  unfold nodesEqual
  simp

/-- Joint zero-distance lemma, by strong induction on twice the total
size (the same measure that proves termination). -/
theorem dist_self_zero (n : ℕ) :
    (∀ t : TreeNode, 2 * t.size ≤ n → tree_distance t t = 0)
    ∧ (∀ l : List TreeNode, 2 * sizeL l + 1 ≤ n → fdRev l l = 0) := by
  induction n using Nat.strong_induction_on with
  | _ n ih =>
    constructor
    · intro t ht
      have hpos := size_pos t
      have hfd : fdRev t.children.reverse t.children.reverse = 0 := by
        have hm : 2 * sizeL t.children.reverse + 1 ≤ n - 1 := by
          have := sizeL_children_lt t
          simp only [sizeL_reverse]
          omega
        have hn1 : n - 1 < n := by omega
        exact (ih (n - 1) hn1).2 t.children.reverse hm
      rw [tree_distance.eq_def]
      simp only [nodesEqual_self t, if_true, hfd]
      simp
    · intro l hl
      match l with
      | [] => simp [fdRev]
      | x :: xs =>
        have hx : tree_distance x x = 0 := by
          have hm : 2 * x.size ≤ n - 1 := by
            have hxp := size_pos x
            simp only [sizeL] at hl
            omega
          have hn1 : n - 1 < n := by
            have hxp := size_pos x
            simp only [sizeL] at hl
            omega
          exact (ih (n - 1) hn1).1 x hm
        have hxs : fdRev xs xs = 0 := by
          have hm : 2 * sizeL xs + 1 ≤ n - 1 := by
            have hxp := size_pos x
            simp only [sizeL] at hl
            omega
          have hn1 : n - 1 < n := by
            have hxp := size_pos x
            simp only [sizeL] at hl
            omega
          exact (ih (n - 1) hn1).2 xs hm
        rw [fdRev.eq_def]
        simp only [hx, hxs]
        simp

theorem tree_distance_self (t : TreeNode) : tree_distance t t = 0 :=
  (dist_self_zero (2 * t.size)).1 t (le_refl _)

/-- C5.  Identity of the tree edit distance: `compute(t, t)` returns
distance 0 for every tree, and `analyze_change(c, c, language)` (with
the deterministic fallback parser and any thresholds) classifies
`identical` with distance 0. -/
theorem tree_distance_identity :
    (∀ t : TreeNode, (compute t t).1 = 0)
    ∧ (∀ code language : String, ∀ tR tm tM : ℚ,
      (analyze_change code code language tR tm tM).change_type = .identical
      ∧ (analyze_change code code language tR tm tM).distance = 0) := by
  constructor
  · intro t
    simp [compute, tree_distance_self]
  · intro code language tR tm tM
    have hd : tree_distance (fallback_parse code language)
        (fallback_parse code language) = 0 := tree_distance_self _
    constructor
    · show classifyChange _ _ _ _ = _
      have hpos : 0 < max (fallback_parse code language).size
          (fallback_parse code language).size := by
        have := size_pos (fallback_parse code language)
        omega
      simp only [analyze_change, hd, hpos, if_pos]
      norm_num [classifyChange]
    · simp [analyze_change, hd]

/-! ### Impact scorer (doc_analyzer.py) -/

theorem insertDesc_perm (x : ImpactedDoc) (l : List ImpactedDoc) :
    (insertDesc x l).Perm (x :: l) := by
  induction l with
  | nil => simp [insertDesc]
  | cons y ys ih =>
    simp only [insertDesc]
    split_ifs with h
    · exact ((ih.cons y).trans (List.Perm.swap x y ys))
    · exact List.Perm.refl _

theorem sortAux_perm (l : List ImpactedDoc) :
    ∀ acc, (l.foldl (fun a x => insertDesc x a) acc).Perm (l ++ acc) := by
  induction l with
  | nil => intro acc; simp
  | cons x xs ih =>
    intro acc
    have h1 := ih (insertDesc x acc)
    have h2 : (xs ++ insertDesc x acc).Perm (xs ++ x :: acc) :=
      List.Perm.append_left xs (insertDesc_perm x acc)
    have h3 : (xs ++ x :: acc).Perm (x :: (xs ++ acc)) :=
      List.perm_middle
    simpa using (h1.trans (h2.trans h3))

theorem sortByScoreDesc_perm (l : List ImpactedDoc) :
    (sortByScoreDesc l).Perm l := by
  simpa using sortAux_perm l []

theorem mkImpactedDoc_score (analysis : Analysis) (p : String × ImpactData) :
    (mkImpactedDoc analysis p).score
      = ((p.2.severity_sum : ℚ) / (max p.2.entities.length 1 : ℚ)) * 2
        + (((p.2.mention_counts.map (·.2)).sum : ℕ) : ℚ) * (3/2)
        + (communitySizeOf analysis p.2.entities : ℚ) * (1/2) := rfl

theorem mkImpactedDoc_priority_iff (analysis : Analysis)
    (p : String × ImpactData) :
    ((mkImpactedDoc analysis p).priority = .high
      ↔ 5 < (mkImpactedDoc analysis p).score)
    ∧ ((mkImpactedDoc analysis p).priority = .medium
      ↔ 2 ≤ (mkImpactedDoc analysis p).score
        ∧ (mkImpactedDoc analysis p).score ≤ 5)
    ∧ ((mkImpactedDoc analysis p).priority = .low
      ↔ (mkImpactedDoc analysis p).score < 2) := by
  have hp : (mkImpactedDoc analysis p).priority
      = if 5 < (mkImpactedDoc analysis p).score then Priority.high
        else if 2 ≤ (mkImpactedDoc analysis p).score then Priority.medium
        else Priority.low := rfl
  rw [hp]
  by_cases h1 : 5 < (mkImpactedDoc analysis p).score
  · rw [if_pos h1]
    exact ⟨iff_of_true rfl h1,
      iff_of_false (fun h => Priority.noConfusion h)
        (fun hb => absurd h1 (not_lt.mpr hb.2)),
      iff_of_false (fun h => Priority.noConfusion h)
        (fun hb => by linarith)⟩
  · rw [if_neg h1]
    by_cases h2 : 2 ≤ (mkImpactedDoc analysis p).score
    · rw [if_pos h2]
      exact ⟨iff_of_false (fun h => Priority.noConfusion h)
          (fun hh => absurd hh h1),
        iff_of_true rfl ⟨h2, not_lt.mp h1⟩,
        iff_of_false (fun h => Priority.noConfusion h)
          (fun hb => absurd h2 (not_le.mpr hb))⟩
    · rw [if_neg h2]
      exact ⟨iff_of_false (fun h => Priority.noConfusion h)
          (fun hh => absurd hh h1),
        iff_of_false (fun h => Priority.noConfusion h)
          (fun hb => absurd hb.1 h2),
        iff_of_true rfl (not_le.mp h2)⟩

/-- C6.  Impact scoring: every `ImpactedDoc` produced by
`prioritize_documentation` is built from an accumulated impact entry
with `score = 2·avg_severity + 1.5·total_mentions + 0.5·community_size`
(severity weights identical:0, refactor:0, minor:1, major:3, rewrite:5),
and its priority is HIGH iff score > 5, MEDIUM iff 2 ≤ score ≤ 5, LOW
iff score < 2. -/
theorem impact_scoring (analysis : Analysis) (d : ImpactedDoc)
    (hd : d ∈ prioritize_documentation analysis) :
    ((alookup severity_scores "identical").getD 1 = 0
      ∧ (alookup severity_scores "refactor").getD 1 = 0
      ∧ (alookup severity_scores "minor").getD 1 = 1
      ∧ (alookup severity_scores "major").getD 1 = 3
      ∧ (alookup severity_scores "rewrite").getD 1 = 5)
    ∧ (∃ p ∈ docImpacts analysis, d = mkImpactedDoc analysis p
        ∧ d.score = ((p.2.severity_sum : ℚ)
              / (max p.2.entities.length 1 : ℚ)) * 2
            + (((p.2.mention_counts.map (·.2)).sum : ℕ) : ℚ) * (3/2)
            + (communitySizeOf analysis p.2.entities : ℚ) * (1/2))
    ∧ (d.priority = .high ↔ 5 < d.score)
    ∧ (d.priority = .medium ↔ 2 ≤ d.score ∧ d.score ≤ 5)
    ∧ (d.priority = .low ↔ d.score < 2) := by
  have hmem : d ∈ (docImpacts analysis).map (mkImpactedDoc analysis) :=
    (sortByScoreDesc_perm _).mem_iff.mp hd
  rcases List.mem_map.mp hmem with ⟨p, hp, hdp⟩
  refine ⟨by decide, ⟨p, hp, hdp.symm, ?_⟩, ?_, ?_, ?_⟩
  · rw [← hdp]; exact mkImpactedDoc_score analysis p
  · rw [← hdp]; exact (mkImpactedDoc_priority_iff analysis p).1
  · rw [← hdp]; exact (mkImpactedDoc_priority_iff analysis p).2.1
  · rw [← hdp]; exact (mkImpactedDoc_priority_iff analysis p).2.2

/-- A placeholder record for `List.headD` in the witness below. -/
def dummyDoc : ImpactedDoc :=
  { doc_path := "", priority := .low, score := 0, reasons := [],
    changed_entities := [], mention_counts := [], line_numbers := [],
    community_size := 0 }

theorem impact_scoring_witness :
    ((prioritize_documentation exampleAnalysis).headD dummyDoc).priority
        = Priority.high
      ↔ 5 < ((prioritize_documentation exampleAnalysis).headD
          dummyDoc).score :=
  (impact_scoring exampleAnalysis
    ((prioritize_documentation exampleAnalysis).headD dummyDoc)
    (by decide)).2.2.1

theorem output_ordering_counterexample :
    (prioritize_documentation exampleAnalysis).map ImpactedDoc.doc_path
        = ["docB", "docA"]
    ∧ (prioritize_documentation exampleAnalysis).map ImpactedDoc.score
        = [6, 6]
    ∧ strLt "docA" "docB" = true :=
  ⟨by decide, by decide, by decide⟩

theorem insertDesc_sorted (x : ImpactedDoc) :
    ∀ l : List ImpactedDoc,
    List.Sorted (fun a b => b.score ≤ a.score) l →
    List.Sorted (fun a b => b.score ≤ a.score) (insertDesc x l) := by
  intro l
  induction l with
  | nil => intro _; simp [insertDesc]
  | cons y ys ih =>
    intro hl
    rcases List.sorted_cons.mp hl with ⟨hy, hys⟩
    simp only [insertDesc]
    split_ifs with h
    · refine List.sorted_cons.mpr ⟨?_, ih hys⟩
      intro z hz
      rcases List.mem_cons.mp ((insertDesc_perm x ys).mem_iff.mp hz)
        with hz | hz
      · exact hz ▸ h
      · exact hy z hz
    · refine List.sorted_cons.mpr ⟨?_, hl⟩
      intro z hz
      rcases List.mem_cons.mp hz with hz | hz
      · exact hz ▸ le_of_lt (not_le.mp h)
      · exact le_trans (hy z hz) (le_of_lt (not_le.mp h))

theorem sortAux_sorted (l : List ImpactedDoc) :
    ∀ acc, List.Sorted (fun a b => b.score ≤ a.score) acc →
    List.Sorted (fun a b => b.score ≤ a.score)
      (l.foldl (fun a x => insertDesc x a) acc) := by
  induction l with
  | nil => intro acc h; simpa using h
  | cons x xs ih =>
    intro acc h
    exact ih (insertDesc x acc) (insertDesc_sorted x acc h)

theorem filter_sorted_lt (s : ℚ) :
    ∀ l : List ImpactedDoc,
    List.Sorted (fun a b => b.score ≤ a.score) l →
    (∀ z ∈ l, z.score < s) →
    l.filter (fun d => decide (d.score = s)) = [] := by
  intro l hl hz
  rw [List.filter_eq_nil_iff]
  intro z hzl
  simp only [decide_eq_true_eq]
  exact ne_of_lt (hz z hzl)

theorem filter_insertDesc (s : ℚ) (x : ImpactedDoc) :
    ∀ l : List ImpactedDoc,
    List.Sorted (fun a b => b.score ≤ a.score) l →
    (insertDesc x l).filter (fun d => decide (d.score = s))
      = l.filter (fun d => decide (d.score = s))
        ++ (if x.score = s then [x] else []) := by
  intro l
  induction l with
  | nil =>
    intro _
    by_cases hxs : x.score = s <;> simp [insertDesc, List.filter, hxs]
  | cons y ys ih =>
    intro hl
    rcases List.sorted_cons.mp hl with ⟨hy, hys⟩
    by_cases h : x.score ≤ y.score
    · rw [show insertDesc x (y :: ys) = y :: insertDesc x ys from by
        simp [insertDesc, h]]
      rw [List.filter_cons, List.filter_cons, ih hys]
      by_cases hy' : y.score = s
      · simp [hy']
      · simp [hy']
    · rw [show insertDesc x (y :: ys) = x :: y :: ys from by
        simp [insertDesc, h]]
      have hyx : y.score < x.score := not_le.mp h
      by_cases hxs : x.score = s
      · have hnil : (y :: ys).filter (fun d => decide (d.score = s))
            = [] := by
          refine filter_sorted_lt s (y :: ys) hl ?_
          intro z hz
          rcases List.mem_cons.mp hz with hz | hz
          · rw [hz, ← hxs]; exact hyx
          · calc z.score ≤ y.score := hy z hz
              _ < x.score := hyx
              _ = s := hxs
        simp [List.filter_cons, hxs, hnil]
      · simp [List.filter_cons, hxs]

/-- C7 (amended).  Output ordering of the impact report: the list is
sorted by score descending, and entries of equal score keep the order in
which their docs were first accumulated into `doc_impacts` (Python's
sort is stable; ties are not re-ordered by `doc_path`). -/
theorem output_ordering_amended (analysis : Analysis) :
    List.Sorted (fun a b => b.score ≤ a.score)
      (prioritize_documentation analysis)
    ∧ ∀ s : ℚ,
      (prioritize_documentation analysis).filter
          (fun d => decide (d.score = s))
        = ((docImpacts analysis).map (mkImpactedDoc analysis)).filter
          (fun d => decide (d.score = s)) := by
  constructor
  · exact sortAux_sorted _ [] (by simp)
  · intro s
    unfold prioritize_documentation sortByScoreDesc
    have key : ∀ (l : List ImpactedDoc) (acc : List ImpactedDoc),
        List.Sorted (fun a b => b.score ≤ a.score) acc →
        (l.foldl (fun a x => insertDesc x a) acc).filter
            (fun d => decide (d.score = s))
          = acc.filter (fun d => decide (d.score = s))
            ++ l.filter (fun d => decide (d.score = s)) := by
      intro l
      induction l with
      | nil => intro acc _; simp
      | cons x xs ih =>
        intro acc hacc
        have h1 := ih (insertDesc x acc) (insertDesc_sorted x acc hacc)
        rw [List.foldl_cons, h1, filter_insertDesc s x acc hacc]
        by_cases hxs : x.score = s <;>
          simp [List.filter_cons, hxs]
    simpa using key ((docImpacts analysis).map (mkImpactedDoc analysis))
      [] (by simp)

/-! ### Label propagation fallback (pipeline.py) -/

theorem label_propagation_tiebreak_counterexample :
    (bestPair [("a", 1), ("b", 1)]).1 = "b"
    ∧ specBestLabelSmallest [("a", 1), ("b", 1)] = "a"
    ∧ lpCounts (initLabelsLP adjEx) ((alookup adjEx "c").getD [])
        = [("a", 1), ("b", 1)]
    ∧ (alookup (label_propagation_fallback adjEx ordersEx) "c").getD ""
        = "b"
    ∧ ("b" : String) ≠ "a" := by
  refine ⟨by decide, by decide, by decide, by decide, by decide⟩

/-- Strict lexicographic code-point comparison is irreflexive. -/
theorem strLtL_irrefl (l : List Char) : strLtL l l = false := by
  induction l with
  | nil => rfl
  | cons a as ih => simp [strLtL, ih]

/-- Characterisation of a failed comparison: equal or strictly
greater. -/
theorem strLtL_not_lt (a b : List Char) (h : strLtL a b = false) :
    a = b ∨ strLtL b a = true := by
  induction a generalizing b with
  | nil =>
    cases b with
    | nil => exact Or.inl rfl
    | cons y ys => simp [strLtL] at h
  | cons x xs ih =>
    cases b with
    | nil => exact Or.inr rfl
    | cons y ys =>
      by_cases hxy : x.toNat < y.toNat
      · simp [strLtL, hxy] at h
      · by_cases hyx : y.toNat < x.toNat
        · exact Or.inr (by simp [strLtL, hyx])
        · have hx : x = y := by
            have hn : x.toNat = y.toNat :=
              by omega
            apply Char.eq_of_val_eq
            unfold Char.toNat at hn
            exact UInt32.eq_of_val_eq (Fin.eq_of_val_eq hn)
          subst hx
          simp only [strLtL, if_neg hxy, if_neg hyx] at h
          rcases ih ys h with h' | h'
          · exact Or.inl (by rw [h'])
          · exact Or.inr (by simp [strLtL, hxy, hyx, h'])

theorem strLtL_trans {a b c : List Char} (h1 : strLtL a b = true)
    (h2 : strLtL b c = true) : strLtL a c = true := by
  induction a generalizing b c with
  | nil =>
    cases c with
    | nil =>
      cases b with
      | nil => exact h1
      | cons y ys => simp [strLtL] at h2
    | cons z zs => rfl
  | cons x xs ih =>
    cases b with
    | nil => simp [strLtL] at h1
    | cons y ys =>
      cases c with
      | nil => simp [strLtL] at h2
      | cons z zs =>
        simp only [strLtL] at h1 h2 ⊢
        by_cases hxy : x.toNat < y.toNat
        · by_cases hyz : y.toNat < z.toNat
          · have hxz : x.toNat < z.toNat := lt_trans hxy hyz
            simp [hxz]
          · by_cases hzy : z.toNat < y.toNat
            · simp [hyz, hzy] at h2
            · have hyzeq : y.toNat = z.toNat :=
                by omega
              have hxz : x.toNat < z.toNat := hyzeq ▸ hxy
              simp [hxz]
        · by_cases hyx : y.toNat < x.toNat
          · simp [hxy, hyx] at h1
          · have hxyeq : x.toNat = y.toNat :=
              by omega
            by_cases hyz : y.toNat < z.toNat
            · have hxz : x.toNat < z.toNat := hxyeq ▸ hyz
              simp [hxz]
            · by_cases hzy : z.toNat < y.toNat
              · simp [hyz, hzy] at h2
              · have hyzeq : y.toNat = z.toNat :=
                  by omega
                have hxz : ¬ x.toNat < z.toNat := by omega
                have hzx : ¬ z.toNat < x.toNat := by omega
                simp only [if_neg hxy, if_neg hyx] at h1
                simp only [if_neg hyz, if_neg hzy] at h2
                simp [hxz, hzx, ih h1 h2]

/-- Lexicographic `(count, label)` domination used by the `max` call
(Python tuple comparison with string comparison on labels). -/
def lexLe (q b : String × ℕ) : Prop :=
  q.2 < b.2 ∨ (q.2 = b.2 ∧ (q.1 = b.1 ∨ strLt q.1 b.1 = true))

theorem lexLe_refl (q : String × ℕ) : lexLe q q :=
  Or.inr ⟨rfl, Or.inl rfl⟩

theorem strLt_string_inj {a b : String} (h : a.toList = b.toList) :
    a = b := by
  cases a with
  | mk da =>
    cases b with
    | mk db =>
      have h' : da = db := by simpa using h
      rw [h']

theorem lexLe_trans {a b c : String × ℕ} (h1 : lexLe a b)
    (h2 : lexLe b c) : lexLe a c := by
  rcases h1 with h1 | ⟨h1, h1'⟩ <;> rcases h2 with h2 | ⟨h2, h2'⟩
  · exact Or.inl (lt_trans h1 h2)
  · exact Or.inl (h2 ▸ h1)
  · exact Or.inl (h1 ▸ h2)
  · refine Or.inr ⟨h1.trans h2, ?_⟩
    rcases h1' with he | hlt <;> rcases h2' with he' | hlt'
    · exact Or.inl (he.trans he')
    · exact Or.inr (he ▸ hlt')
    · exact Or.inr (he' ▸ hlt)
    · exact Or.inr (strLtL_trans hlt hlt')

theorem pickMax_cond (p q : String × ℕ) :
    pickMax p q
      = if p.2 < q.2 ∨ (p.2 = q.2 ∧ strLt p.1 q.1 = true) then q else p :=
  rfl

theorem lexLe_pickMax_left (p q : String × ℕ) : lexLe p (pickMax p q) := by
  rw [pickMax_cond]
  split_ifs with h
  · rcases h with h | ⟨h, h'⟩
    · exact Or.inl h
    · exact Or.inr ⟨h, Or.inr h'⟩
  · exact lexLe_refl p

theorem lexLe_pickMax_right (p q : String × ℕ) : lexLe q (pickMax p q) := by
  rw [pickMax_cond]
  split_ifs with h
  · exact lexLe_refl q
  · push_neg at h
    rcases lt_or_eq_of_le h.1 with h1 | h1
    · exact Or.inl h1
    · refine Or.inr ⟨h1, ?_⟩
      have h2 := h.2 h1.symm
      rcases strLtL_not_lt p.1.toList q.1.toList (by
          revert h2
          unfold strLt
          cases strLtL p.1.toList q.1.toList <;> simp) with h3 | h3
      · exact Or.inl (strLt_string_inj h3).symm
      · exact Or.inr h3

theorem pickMax_mem (p q : String × ℕ) :
    pickMax p q = p ∨ pickMax p q = q := by
  rw [pickMax_cond]
  split_ifs <;> simp

theorem foldl_pickMax_spec (rest : List (String × ℕ)) :
    ∀ p, (rest.foldl pickMax p) ∈ p :: rest
      ∧ ∀ q ∈ p :: rest, lexLe q (rest.foldl pickMax p) := by
  induction rest with
  | nil =>
    intro p
    refine ⟨by simp, ?_⟩
    intro q hq
    simp at hq
    exact hq ▸ lexLe_refl _
  | cons r rest ih =>
    intro p
    have hspec := ih (pickMax p r)
    constructor
    · have h1 := hspec.1
      rw [List.mem_cons] at h1
      rcases h1 with h1 | h1
      · rw [List.foldl_cons, h1]
        rcases pickMax_mem p r with hm | hm
        · rw [hm]; exact List.mem_cons_self _ _
        · rw [hm]
          exact List.mem_cons_of_mem _ (List.mem_cons_self _ _)
      · exact List.mem_cons_of_mem _ (List.mem_cons_of_mem _ h1)
    · intro q hq
      rcases List.mem_cons.mp hq with hq | hq
      · exact lexLe_trans (hq ▸ lexLe_pickMax_left p r)
          (hspec.2 _ (List.mem_cons_self _ _))
      rcases List.mem_cons.mp hq with hq | hq
      · exact lexLe_trans (hq ▸ lexLe_pickMax_right p r)
          (hspec.2 _ (List.mem_cons_self _ _))
      · exact hspec.2 q (List.mem_cons_of_mem _ hq)

theorem lpStep_changes_le (adj : List (String × List String))
    (st : List (String × String) × ℕ) (n : String) :
    st.2 ≤ (lpStep adj st n).2 := by
  unfold lpStep
  split_ifs <;> simp

theorem foldl_lpStep_changes_le (adj : List (String × List String)) :
    ∀ (order : List String) (st : List (String × String) × ℕ),
    st.2 ≤ (order.foldl (lpStep adj) st).2 := by
  intro order
  induction order with
  | nil => intro st; simp
  | cons n order ih =>
    intro st
    exact le_trans (lpStep_changes_le adj st n) (ih (lpStep adj st n))

theorem lpStep_no_change (adj : List (String × List String))
    (st : List (String × String) × ℕ) (n : String)
    (h : (lpStep adj st n).2 = st.2) : (lpStep adj st n).1 = st.1 := by
  unfold lpStep at *
  split_ifs at h ⊢ <;> simp_all

theorem foldl_lpStep_no_change (adj : List (String × List String)) :
    ∀ (order : List String) (st : List (String × String) × ℕ),
    (order.foldl (lpStep adj) st).2 = st.2 →
    (order.foldl (lpStep adj) st).1 = st.1 := by
  intro order
  induction order with
  | nil => intro st _; rfl
  | cons n order ih =>
    intro st h
    simp only [List.foldl_cons] at h ⊢
    have h1 : st.2 ≤ (lpStep adj st n).2 := lpStep_changes_le adj st n
    have h2 : (lpStep adj st n).2 ≤ (order.foldl (lpStep adj)
        (lpStep adj st n)).2 := foldl_lpStep_changes_le adj order _
    have heq : (lpStep adj st n).2 = st.2 := by omega
    rw [ih (lpStep adj st n) (by omega)]
    exact lpStep_no_change adj st n heq

/-- C8 (amended).  Label-propagation fallback: in each round a node's
new label is the neighbour label with the highest count, ties broken by
the *largest* label (lexicographic max of `(count, label)`); iteration
runs at most 10 rounds and stops early as soon as a round changes no
label. -/
theorem label_propagation_amended :
    (∀ counts : List (String × ℕ), counts ≠ [] →
      bestPair counts ∈ counts
      ∧ ∀ q ∈ counts, lexLe q (bestPair counts))
    ∧ (∀ (adj : List (String × List String)) labels order,
        (run_round adj labels order).2 = 0 →
        (run_round adj labels order).1 = labels)
    ∧ (∀ (adj : List (String × List String)) orders fuel r labels,
        (run_round adj labels (orders r)).2 = 0 →
        lpLoop adj orders (fuel + 1) r labels = labels)
    ∧ (∀ (adj : List (String × List String)) orders,
        label_propagation_fallback adj orders
          = lpLoop adj orders 10 0 (initLabelsLP adj)) := by
  refine ⟨?_, ?_, ?_, fun _ _ => rfl⟩
  · intro counts hc
    match counts with
    | [] => exact absurd rfl hc
    | p :: rest => exact foldl_pickMax_spec rest p
  · intro adj labels order h
    exact foldl_lpStep_no_change adj order (labels, 0) h
  · intro adj orders fuel r labels h
    have hl : (run_round adj labels (orders r)).1 = labels :=
      foldl_lpStep_no_change adj (orders r) (labels, 0) h
    show (if (run_round adj labels (orders r)).2 = 0 then
        (run_round adj labels (orders r)).1
      else lpLoop adj orders fuel (r + 1)
        (run_round adj labels (orders r)).1) = labels
    rw [if_pos h, hl]

/-! ### Merkle root (pipeline.py) -/

theorem chunksF_join (size : ℕ) (hs : 0 < size) :
    ∀ (fuel : ℕ) (data : List ℕ), data.length ≤ fuel →
    (chunksF size fuel data).join = data := by
  intro fuel
  induction fuel with
  | zero =>
    intro data h
    have : data = [] := List.eq_nil_of_length_eq_zero (by omega)
    subst this
    rfl
  | succ f ih =>
    intro data h
    cases data with
    | nil => rfl
    | cons x xs =>
      have hrest := ih (List.drop size (x :: xs)) (by
        simp only [List.length_drop, List.length_cons] at h ⊢
        omega)
      show (List.take size (x :: xs) :: chunksF size f
          (List.drop size (x :: xs))).join = x :: xs
      show List.take size (x :: xs) ++ (chunksF size f
          (List.drop size (x :: xs))).join = x :: xs
      rw [hrest]
      exact List.take_append_drop size (x :: xs)

theorem chunksF_bounds (size : ℕ) (hs : 0 < size) :
    ∀ (fuel : ℕ) (data : List ℕ), data.length ≤ fuel →
    ∀ ch ∈ chunksF size fuel data, ch.length ≤ size ∧ ch ≠ [] := by
  intro fuel
  induction fuel with
  | zero =>
    intro data h ch hch
    have : data = [] := List.eq_nil_of_length_eq_zero (by omega)
    subst this
    simp [chunksF] at hch
  | succ f ih =>
    intro data h ch hch
    cases data with
    | nil => simp [chunksF] at hch
    | cons x xs =>
      have hch' : ch ∈ List.take size (x :: xs) :: chunksF size f
          (List.drop size (x :: xs)) := hch
      rcases List.mem_cons.mp hch' with hc | hc
      · subst hc
        refine ⟨by simpa using List.length_take_le size (x :: xs), ?_⟩
        cases size with
        | zero => omega
        | succ s => simp [List.take]
      · exact ih (List.drop size (x :: xs)) (by
          simp only [List.length_drop, List.length_cons] at h ⊢
          omega) ch hc

theorem chunksOf_single (c : ℕ) (data : List ℕ) (hne : data ≠ [])
    (hle : data.length ≤ c) : chunksOf c data = [data] := by
  unfold chunksOf
  cases data with
  | nil => exact absurd rfl hne
  | cons x xs =>
    show List.take c (x :: xs) :: chunksF c (x :: xs).length.pred
        (List.drop c (x :: xs)) = [x :: xs]
    have hdrop : List.drop c (x :: xs) = [] :=
      List.drop_eq_nil_of_le (by simpa using hle)
    have htake : List.take c (x :: xs) = x :: xs :=
      List.take_of_length_le (by simpa using hle)
    rw [hdrop, htake]
    cases h : (x :: xs).length.pred <;> rfl

theorem combineLevel_length (H : List ℕ → List ℕ) :
    ∀ l : List (List ℕ),
    (combineLevel H l).length = (l.length + 1) / 2
  | [] => by simp [combineLevel]
  | [a] => by simp [combineLevel]
  | a :: b :: rest => by
    have ih := combineLevel_length H rest
    simp only [combineLevel, List.length_cons, ih]
    omega

theorem reduceF_fuel_inv (H : List ℕ → List ℕ) :
    ∀ (f1 : ℕ), ∀ (f2 : ℕ) (l : List (List ℕ)),
    l.length ≤ f1 + 1 → l.length ≤ f2 + 1 →
    reduceF H f1 l = reduceF H f2 l := by
  intro f1
  induction f1 with
  | zero =>
    intro f2 l h1 h2
    match l with
    | [] => cases f2 <;> rfl
    | [x] => cases f2 <;> rfl
    | a :: b :: rest => simp at h1
  | succ g1 ih =>
    intro f2 l h1 h2
    match l with
    | [] => cases f2 <;> rfl
    | [x] => cases f2 <;> rfl
    | a :: b :: rest =>
      match f2 with
      | 0 => simp at h2
      | g2 + 1 =>
        show reduceF H g1 (combineLevel H (a :: b :: rest))
            = reduceF H g2 (combineLevel H (a :: b :: rest))
        have hlen := combineLevel_length H (a :: b :: rest)
        apply ih
        · rw [hlen]
          simp only [List.length_cons] at h1 ⊢
          omega
        · rw [hlen]
          simp only [List.length_cons] at h2 ⊢
          omega

theorem reduceLayers_step (H : List ℕ → List ℕ) (l : List (List ℕ))
    (h : 2 ≤ l.length) :
    reduceLayers H l = reduceLayers H (combineLevel H l) := by
  match l with
  | a :: b :: rest =>
    show reduceF H (a :: b :: rest).length (a :: b :: rest) = _
    have hL : (a :: b :: rest).length = rest.length + 2 := by simp
    rw [hL]
    show reduceF H (rest.length + 1) (combineLevel H (a :: b :: rest)) = _
    unfold reduceLayers
    apply reduceF_fuel_inv
    · rw [combineLevel_length]
      simp only [List.length_cons]
      omega
    · omega

theorem combineLevel_append_last (H : List ℕ → List ℕ) (a : List ℕ) :
    ∀ l : List (List ℕ), l.length % 2 = 0 →
    combineLevel H (l ++ [a]) = combineLevel H l ++ [H (a ++ a)]
  | [], _ => by simp [combineLevel]
  | [x], h => by simp at h
  | x :: y :: rest, h => by
    have ih := combineLevel_append_last H a rest (by
      simp only [List.length_cons] at h
      omega)
    simp only [List.cons_append, combineLevel, List.append_eq, ih]

/-- C9.  Merkle root definition and stability: `merkle_root_for_bytes`
computes the reference binary Merkle tree over the digests of the
fixed-size chunks — empty input yields the digest of empty input, a
single chunk yields the leaf digest hashed once more, each level hashes
consecutive pairs and duplicates its last node at odd fanout, and a
layer of two or more nodes is reduced level by level down to a single
node whose digest is the root — so identical bytes and chunk size always
yield the identical root. -/
theorem merkle_root_reference (H : List ℕ → List ℕ) (c : ℕ)
    (hc : 0 < c) :
    merkle_root_for_bytes H [] c = (H [], 0)
    ∧ (∀ data : List ℕ, data ≠ [] → data.length ≤ c →
        merkle_root_for_bytes H data c = (H (H data), 1))
    ∧ (∀ data : List ℕ, (chunksOf c data).join = data
        ∧ ∀ ch ∈ chunksOf c data, ch.length ≤ c ∧ ch ≠ [])
    ∧ (∀ data : List ℕ, data ≠ [] →
        merkle_root_for_bytes H data c
          = (H (reduceLayers H ((chunksOf c data).map H)),
             (chunksOf c data).length))
    ∧ (∀ x : List ℕ, reduceLayers H [x] = x)
    ∧ (∀ l : List (List ℕ), 2 ≤ l.length →
        reduceLayers H l = reduceLayers H (combineLevel H l))
    ∧ (∀ x y : List ℕ, ∀ rest : List (List ℕ),
        combineLevel H (x :: y :: rest)
          = H (x ++ y) :: combineLevel H rest)
    ∧ (∀ l : List (List ℕ), ∀ x : List ℕ, l.length % 2 = 0 →
        combineLevel H (l ++ [x]) = combineLevel H l ++ [H (x ++ x)])
    ∧ (∀ d1 d2 : List ℕ, d1 = d2 →
        merkle_root_for_bytes H d1 c = merkle_root_for_bytes H d2 c) := by
  refine ⟨rfl, ?_, ?_, ?_, fun x => rfl, reduceLayers_step H,
    fun x y rest => rfl,
    fun l x h => combineLevel_append_last H x l h, fun d1 d2 h => h ▸ rfl⟩
  · intro data hne hle
    unfold merkle_root_for_bytes
    rw [if_neg hne, chunksOf_single c data hne hle]
    rfl
  · intro data
    exact ⟨chunksF_join c hc data.length data (le_refl _),
      chunksF_bounds c hc data.length data (le_refl _)⟩
  · intro data hne
    unfold merkle_root_for_bytes
    rw [if_neg hne]
    rcases hchunks : (chunksOf c data).map H with _ | ⟨l, ls⟩
    · exfalso
      have hj : (chunksOf c data).join = data :=
        chunksF_join c hc data.length data (le_refl _)
      have hnil : chunksOf c data = [] := by
        cases hcc : chunksOf c data with
        | nil => rfl
        | cons u us => rw [hcc] at hchunks; simp at hchunks
      rw [hnil] at hj
      exact hne hj.symm
    · cases ls with
      | nil =>
        show (H l, 1) = _
        have hlen : (chunksOf c data).length = 1 := by
          have := congrArg List.length hchunks
          simpa using this
        rw [hlen]
        rfl
      | cons l2 ls2 =>
        show (H (reduceLayers H (l :: l2 :: ls2)),
            (l :: l2 :: ls2).length) = _
        have hlen := congrArg List.length hchunks
        simp only [List.length_map] at hlen
        rw [hlen]

theorem merkle_root_reference_witness :
    merkle_root_for_bytes (fun l => [l.length]) [5] 2 = ([1], 1) := by
  have h := (merkle_root_reference (fun l => [l.length]) 2
    (by decide)).2.1 [5] (by decide) (by decide)
  exact h.trans (by decide)

/-! ### MinHash and LSH (pipeline.py) -/

theorem map_const_replicate {α β : Type} (l : List α) (c : β) :
    l.map (fun _ => c) = List.replicate l.length c := by
  induction l with
  | nil => rfl
  | cons x xs ih => simp [List.replicate, ih]

theorem countP_zip_self (r : List ℕ) :
    (List.zip r r).countP (fun p => decide (p.1 = p.2)) = r.length := by
  induction r with
  | nil => rfl
  | cons x xs ih => simp [List.zip_cons_cons, List.countP_cons, ih]

theorem strLtL_asymm {a b : List Char} (h : strLtL a b = true) :
    strLtL b a = false := by
  cases hba : strLtL b a with
  | false => rfl
  | true =>
    have := strLtL_trans h hba
    rw [strLtL_irrefl] at this
    exact absurd this (by simp)

theorem alookup_aupdate_self {κ α : Type} [DecidableEq κ]
    (l : List (κ × α)) (k : κ) (v : α) :
    alookup (aupdate l k v) k = some v := by
  induction l with
  | nil => simp [aupdate, alookup]
  | cons p rest ih =>
    by_cases h : p.1 = k
    · simp [aupdate, alookup, h]
    · cases p with
      | mk k' w =>
        simp only at h
        simp [aupdate, alookup, h, ih]

theorem alookup_aupdate_ne {κ α : Type} [DecidableEq κ]
    (l : List (κ × α)) (k k' : κ) (v : α) (h : k' ≠ k) :
    alookup (aupdate l k v) k' = alookup l k' := by
  induction l with
  | nil =>
    show (if k = k' then some v else none) = none
    rw [if_neg (fun hh => h hh.symm)]
  | cons p rest ih =>
    cases p with
    | mk k0 w =>
      simp only [aupdate]
      by_cases h0 : k0 = k
      · rw [if_pos h0]
        simp only [alookup]
        by_cases h1 : k0 = k'
        · exact absurd (h1.symm.trans h0) h
        · rw [if_neg h1, if_neg h1]
      · rw [if_neg h0]
        simp only [alookup]
        by_cases h1 : k0 = k'
        · rw [if_pos h1, if_pos h1]
        · rw [if_neg h1, if_neg h1, ih]

theorem alookup_mem {κ α : Type} [DecidableEq κ]
    (l : List (κ × α)) (k : κ) (v : α) (h : alookup l k = some v) :
    (k, v) ∈ l := by
  induction l with
  | nil => simp [alookup] at h
  | cons p rest ih =>
    cases p with
    | mk k0 w =>
      by_cases h0 : k0 = k
      · subst h0
        simp [alookup] at h
        simp [h]
      · simp only [alookup, if_neg h0] at h
        exact List.mem_cons_of_mem _ (ih h)

theorem bandLoop_preserve (sig : List ℕ) (rows : ℕ) (fid : String) :
    ∀ (n bidx : ℕ) (bks : List ((ℕ × List ℕ) × List String))
      (key : ℕ × List ℕ), key.1 < bidx →
    alookup (bandLoop sig rows fid n bidx bks) key = alookup bks key := by
  intro n
  induction n with
  | zero => intro bidx bks key _; rfl
  | succ m ih =>
    intro bidx bks key hk
    show alookup (if min (bidx * rows + rows) sig.length ≤ bidx * rows
        then bks
        else bandLoop sig rows fid m (bidx + 1)
          (bucketAdd bks (bidx, (sig.drop (bidx * rows)).take
            (min (bidx * rows + rows) sig.length - bidx * rows)) fid))
        key = alookup bks key
    split_ifs with h
    · rfl
    · rw [ih (bidx + 1) _ key (by omega)]
      unfold bucketAdd
      apply alookup_aupdate_ne
      intro hkey
      have : key.1 = bidx := by rw [hkey]
      omega

theorem bandLoop_zero (sig : List ℕ) (rows : ℕ) (fid : String)
    (hrows : 1 ≤ rows) (hsig : 1 ≤ sig.length) :
    ∀ (m : ℕ) (bks : List ((ℕ × List ℕ) × List String)),
    alookup (bandLoop sig rows fid (m + 1) 0 bks)
        (0, sig.take (min rows sig.length))
      = some (((alookup bks (0, sig.take (min rows sig.length))).getD [])
          ++ [fid]) := by
  intro m bks
  have hstop : ¬ (min (0 * rows + rows) sig.length ≤ 0 * rows) := by
    simp only [Nat.zero_mul, Nat.zero_add]
    omega
  show alookup (if min (0 * rows + rows) sig.length ≤ 0 * rows
      then bks
      else bandLoop sig rows fid m (0 + 1)
        (bucketAdd bks (0, (sig.drop (0 * rows)).take
          (min (0 * rows + rows) sig.length - 0 * rows)) fid)) _ = _
  rw [if_neg hstop]
  have hkey : (0, (sig.drop (0 * rows)).take
      (min (0 * rows + rows) sig.length - 0 * rows))
      = ((0, sig.take (min rows sig.length)) : ℕ × List ℕ) := by
    simp
  rw [hkey]
  rw [bandLoop_preserve sig rows fid m 1 _ _ (by simp)]
  unfold bucketAdd
  exact alookup_aupdate_self _ _ _

theorem mem_foldl_addPair_acc (p : String × String) :
    ∀ (l : List (String × String)) (acc : List (String × String)),
    p ∈ acc → p ∈ l.foldl addPair acc := by
  intro l
  induction l with
  | nil => intro acc h; exact h
  | cons q rest ih =>
    intro acc h
    rw [List.foldl_cons]
    apply ih
    unfold addPair
    split_ifs with hc
    · exact h
    · exact List.mem_append_left _ h

theorem mem_foldl_addPair_elem (p : String × String) :
    ∀ (l : List (String × String)) (acc : List (String × String)),
    p ∈ l → p ∈ l.foldl addPair acc := by
  intro l
  induction l with
  | nil => intro acc h; simp at h
  | cons q rest ih =>
    intro acc h
    rw [List.foldl_cons]
    rcases List.mem_cons.mp h with h | h
    · subst h
      apply mem_foldl_addPair_acc
      unfold addPair
      split_ifs with hc
      · exact List.mem_of_elem_eq_true hc
      · exact List.mem_append_right _ (List.mem_cons_self _ _)
    · exact ih (addPair acc q) h

theorem mem_bucketFold_acc (p : String × String) :
    ∀ (buckets : List ((ℕ × List ℕ) × List String))
      (acc : List (String × String)), p ∈ acc →
    p ∈ buckets.foldl
      (fun pairs kv => (allPairs kv.2).foldl addPair pairs) acc := by
  intro buckets
  induction buckets with
  | nil => intro acc h; exact h
  | cons kv rest ih =>
    intro acc h
    rw [List.foldl_cons]
    exact ih _ (mem_foldl_addPair_acc p _ acc h)

theorem mem_bucketFold (p : String × String)
    (key : ℕ × List ℕ) (ids : List String) :
    ∀ (buckets : List ((ℕ × List ℕ) × List String))
      (acc : List (String × String)),
    (key, ids) ∈ buckets → p ∈ allPairs ids →
    p ∈ buckets.foldl
      (fun pairs kv => (allPairs kv.2).foldl addPair pairs) acc := by
  intro buckets
  induction buckets with
  | nil => intro acc h _; simp at h
  | cons kv rest ih =>
    intro acc hmem hp
    rw [List.foldl_cons]
    rcases List.mem_cons.mp hmem with h | h
    · subst h
      exact mem_bucketFold_acc p rest _ (mem_foldl_addPair_elem p _ acc hp)
    · exact ih _ h hp

/-- C10.  Any file whose content is shorter than the rolling-hash window
yields an empty shingle set; its MinHash signature is the constant
vector `P-1`; two such files have signature similarity exactly 1; and,
their signatures agreeing on every band, they always form an LSH
candidate pair, regardless of their contents. -/
theorem empty_shingle_constant_signature
    (Hb : List ℕ → ℕ) (data1 data2 : List ℕ) (window maxTokens : ℕ)
    (a b : List ℕ) (P : ℕ) (id1 id2 : String) (bands rows : ℕ)
    (h1 : data1.length < window) (h2 : data2.length < window)
    (ha : a ≠ []) (hlt : strLt id1 id2 = true)
    (hbands : 1 ≤ bands) (hrows : 1 ≤ rows) :
    file_tokens_from_bytes Hb data1 window maxTokens = []
    ∧ file_tokens_from_bytes Hb data2 window maxTokens = []
    ∧ minhash_signature (file_tokens_from_bytes Hb data1 window maxTokens)
        a b P = List.replicate a.length (P - 1)
    ∧ sig_similarity
        (minhash_signature
          (file_tokens_from_bytes Hb data1 window maxTokens) a b P)
        (minhash_signature
          (file_tokens_from_bytes Hb data2 window maxTokens) a b P) = 1
    ∧ (id1, id2) ∈ lsh_candidates
        [(id1, minhash_signature
            (file_tokens_from_bytes Hb data1 window maxTokens) a b P),
         (id2, minhash_signature
            (file_tokens_from_bytes Hb data2 window maxTokens) a b P)]
        bands rows := by
  have ht1 : file_tokens_from_bytes Hb data1 window maxTokens = [] := by
    unfold file_tokens_from_bytes
    rw [if_pos (Or.inr (Or.inr h1))]
  have ht2 : file_tokens_from_bytes Hb data2 window maxTokens = [] := by
    unfold file_tokens_from_bytes
    rw [if_pos (Or.inr (Or.inr h2))]
  have hsig : ∀ t : List ℕ, t = [] →
      minhash_signature t a b P = List.replicate a.length (P - 1) := by
    intro t ht
    subst ht
    unfold minhash_signature
    rw [if_pos rfl]
    exact map_const_replicate a (P - 1)
  have hs1 := hsig _ ht1
  have hs2 := hsig _ ht2
  have halen : 1 ≤ a.length := by
    cases a with
    | nil => exact absurd rfl ha
    | cons x xs => simp
  have hrep : (List.replicate a.length (P - 1)).length = a.length := by
    simp
  have hne : List.replicate a.length (P - 1) ≠ [] := by
    obtain ⟨n, hn⟩ : ∃ n, a.length = n + 1 := ⟨a.length - 1, by omega⟩
    rw [hn, List.replicate_succ]
    exact List.cons_ne_nil _ _
  have hsim : sig_similarity (List.replicate a.length (P - 1))
      (List.replicate a.length (P - 1)) = 1 := by
    unfold sig_similarity
    rw [if_neg (by push_neg; exact ⟨hne, hne, rfl⟩)]
    rw [countP_zip_self, hrep]
    exact div_self (Nat.cast_ne_zero.mpr (by omega))
  refine ⟨ht1, ht2, hs1, ?_, ?_⟩
  · rw [hs1, hs2]; exact hsim
  · rw [hs1, hs2]
    set s := List.replicate a.length (P - 1) with hs
    have hslen : s.length = a.length := by simp [hs]
    have hk0 : ¬ (s.length = 0) := by omega
    show (id1, id2) ∈
      (if s.length = 0 then []
       else
         (List.foldl
             (fun bks fs => bandLoop fs.2
               (if s.length < bands * rows
                 then max 1 (s.length / max 1 bands) else rows)
               fs.1 bands 0 bks)
             [] [(id1, s), (id2, s)]).foldl
           (fun pairs kv => (allPairs kv.2).foldl addPair pairs) [])
    rw [if_neg hk0]
    set rows' := if s.length < bands * rows
      then max 1 (s.length / max 1 bands) else rows with hrows'
    have hrows'1 : 1 ≤ rows' := by
      rw [hrows']
      split_ifs with h
      · exact le_max_left _ _
      · exact hrows
    set key0 : ℕ × List ℕ := (0, s.take (min rows' s.length)) with hkey0
    obtain ⟨m, rfl⟩ : ∃ m, bands = m + 1 := ⟨bands - 1, by omega⟩
    have hb1 : ∀ bks, alookup (bandLoop s rows' id1 (m + 1) 0 bks) key0
        = some (((alookup bks key0).getD []) ++ [id1]) := fun bks =>
      bandLoop_zero s rows' id1 hrows'1 (by omega) m bks
    have hb2 : ∀ bks, alookup (bandLoop s rows' id2 (m + 1) 0 bks) key0
        = some (((alookup bks key0).getD []) ++ [id2]) := fun bks =>
      bandLoop_zero s rows' id2 hrows'1 (by omega) m bks
    have hbuckets : alookup
        (bandLoop s rows' id2 (m + 1) 0 (bandLoop s rows' id1 (m + 1) 0 []))
        key0 = some [id1, id2] := by
      rw [hb2, hb1]
      rfl
    have hmem : (key0, [id1, id2]) ∈
        bandLoop s rows' id2 (m + 1) 0 (bandLoop s rows' id1 (m + 1) 0 []) :=
      alookup_mem _ _ _ hbuckets
    have hpair : (id1, id2) ∈ allPairs [id1, id2] := by
      have hlt' : strLtL id1.toList id2.toList = true := hlt
      have hfalse : strLtL id2.data id1.data = false := strLtL_asymm hlt'
      simp [allPairs, orderPair, strLt, hfalse]
    exact mem_bucketFold (id1, id2) key0 [id1, id2] _ [] hmem hpair

theorem empty_shingle_constant_signature_witness :
    sig_similarity
      (minhash_signature (file_tokens_from_bytes (fun l => l.sum)
        [1, 2] 8 100) [3, 4] [1, 1] 97)
      (minhash_signature (file_tokens_from_bytes (fun l => l.sum)
        [9] 8 100) [3, 4] [1, 1] 97) = 1
    ∧ ("code:x", "docs:y") ∈ lsh_candidates
        [("code:x", minhash_signature (file_tokens_from_bytes
            (fun l => l.sum) [1, 2] 8 100) [3, 4] [1, 1] 97),
         ("docs:y", minhash_signature (file_tokens_from_bytes
            (fun l => l.sum) [9] 8 100) [3, 4] [1, 1] 97)]
        16 8 := by
  have h := empty_shingle_constant_signature (fun l => l.sum) [1, 2] [9]
    8 100 [3, 4] [1, 1] 97 "code:x" "docs:y" 16 8
    (by decide) (by decide) (by decide) (by decide) (by decide) (by decide)
  exact ⟨h.2.2.2.1, h.2.2.2.2⟩

/-- C1's counterexample: one write of the fixture section appends it at
the end of the file followed by a blank line; the second write of the
very same section matches it with a lazy body running to end-of-file
and rewrites it without the trailing newlines, so the second result
differs from the first (it is two bytes shorter). -/
theorem doc_write_idempotence_counterexample :
    docWrite (docWrite docD0) ≠ docWrite docD0 := by decide

/-- C1 (amended).  Doc writes are not byte-idempotent: on the fixture
doc the first write appends the section and leaves a trailing blank
line, the second write trims exactly that trailing `"\n\n"`, and from
the second write on the content is stable (the third write equals the
second).  Moreover, when the doc already contains `## API Reference`,
the transformation is exactly the per-section loop (no heading is
prepended). -/
theorem doc_write_stabilization :
    docWrite docD0 = ("# Doc\n\n\n## API Reference\n\n\n### foo\n\n"
        ++ "*Source: `a.py`*\n\nDoes stuff.\n\n").toList
    ∧ docWrite docD0 = docWrite (docWrite docD0) ++ ("\n\n".toList)
    ∧ docWrite (docWrite (docWrite docD0)) = docWrite (docWrite docD0)
    ∧ (∀ d : List Char, ∀ ss : List DocSection,
        containsSeq d ("## API Reference".toList) = true →
        append_documentation_content d ss
          = ss.foldl processDocSection d) := by
  refine ⟨by decide, by decide, by decide, ?_⟩
  intro d ss h
  unfold append_documentation_content
  rw [if_pos h]

theorem doc_write_stabilization_witness :
    containsSeq ("## API Reference".toList) ("## API Reference".toList)
      = true
    ∧ append_documentation_content ("## API Reference".toList) [docSec0]
      = [docSec0].foldl processDocSection ("## API Reference".toList) :=
  ⟨by decide, doc_write_stabilization.2.2.2
    ("## API Reference".toList) [docSec0] (by decide)⟩

/-! Spec-side lemmas about trie nodes and longest node suffixes. -/

theorem isNode_append_left (P : List (List Char)) (u v : List Char)
    (h : isNode P (u ++ v) = true) : isNode P u = true := by
  cases u with
  | nil => rfl
  | cons c r =>
    unfold isNode at h
    rw [Bool.or_eq_true] at h
    rcases h with h | h
    · simp at h
    · rw [List.any_eq_true] at h
      obtain ⟨p, hp, hpre⟩ := h
      unfold isNode
      rw [Bool.or_eq_true, List.any_eq_true]
      refine Or.inr ⟨p, hp, ?_⟩
      rw [List.isPrefixOf_iff_prefix] at hpre ⊢
      exact (List.prefix_append (c :: r) v).trans hpre

theorem mem_isNode (P : List (List Char)) (q : List Char) (h : q ∈ P) :
    isNode P q = true := by
  unfold isNode
  simp only [Bool.or_eq_true, List.any_eq_true]
  exact Or.inr ⟨q, h, by rw [List.isPrefixOf_iff_prefix]⟩

theorem isNode_lnsSpec (P : List (List Char)) :
    ∀ s : List Char, isNode P (lnsSpec P s) = true := by
  intro s
  induction s with
  | nil => rfl
  | cons c r ih =>
    unfold lnsSpec
    split_ifs with h
    · exact h
    · exact ih

theorem lnsSpec_suffix (P : List (List Char)) :
    ∀ s : List Char, (lnsSpec P s).IsSuffix s := by
  intro s
  induction s with
  | nil => exact List.suffix_refl []
  | cons c r ih =>
    unfold lnsSpec
    split_ifs with h
    · exact List.suffix_refl _
    · exact ih.trans (List.suffix_cons c r)

theorem suffix_lnsSpec (P : List (List Char)) :
    ∀ s u : List Char, u.IsSuffix s → isNode P u = true →
    u.IsSuffix (lnsSpec P s) := by
  intro s
  induction s with
  | nil =>
    intro u hu _
    have : u = [] := List.eq_nil_of_suffix_nil hu
    simp [this, lnsSpec]
  | cons c r ih =>
    intro u hu hn
    unfold lnsSpec
    split_ifs with h
    · exact hu
    · rcases List.suffix_cons_iff.mp hu with h1 | h1
      · rw [h1] at hn
        exact absurd hn (by simp [h])
      · exact ih u h1 hn

theorem lnsExt_lnsSpec (P : List (List Char)) (a : Char) :
    ∀ r : List Char, lnsExt P (lnsSpec P r) a = lnsExt P r a := by
  intro r
  induction r with
  | nil => rfl
  | cons c r ih =>
    show lnsExt P (lnsSpec P (c :: r)) a = _
    unfold lnsSpec
    split_ifs with h
    · rfl
    · rw [ih]
      have hni : ¬ isNode P ((c :: r) ++ [a]) = true := fun hx =>
        h (isNode_append_left P (c :: r) [a] hx)
      have hunf : lnsExt P (c :: r) a
          = if isNode P ((c :: r) ++ [a]) then (c :: r) ++ [a]
            else lnsExt P r a := rfl
      rw [hunf, if_neg hni]

theorem lastD_cons (d c : Char) (r : List Char) (h : r ≠ []) :
    lastD d (c :: r) = lastD d r := by
  cases r with
  | nil => exact absurd rfl h
  | cons x xs => rfl

theorem dropLast_lastD (l : List Char) (h : l ≠ []) :
    l.dropLast ++ [lastD ' ' l] = l := by
  induction l with
  | nil => exact absurd rfl h
  | cons c r ih =>
    cases hr : r with
    | nil => rfl
    | cons x xs =>
      rw [← hr]
      have hrne : r ≠ [] := by rw [hr]; simp
      have h2 := ih hrne
      have hdl : (c :: r).dropLast = c :: r.dropLast := by rw [hr]; rfl
      rw [hdl, lastD_cons ' ' c r hrne]
      show c :: (r.dropLast ++ [lastD ' ' r]) = c :: r
      rw [h2]

theorem dropLast_drop_one (l : List Char) :
    l.dropLast.drop 1 = (l.drop 1).dropLast := by
  cases l with
  | nil => rfl
  | cons c r =>
    cases r with
    | nil => rfl
    | cons x xs => rfl

theorem lnsSpec_eq_lnsExt_dropLast (P : List (List Char)) :
    ∀ t : List Char, t ≠ [] →
    lnsSpec P t = lnsExt P t.dropLast (lastD ' ' t) := by
  intro t
  induction t with
  | nil => intro h; exact absurd rfl h
  | cons c r ih =>
    intro _
    cases hr : r with
    | nil => rfl
    | cons x xs =>
      rw [← hr]
      have hrne : r ≠ [] := by rw [hr]; simp
      have hdl : (c :: r).dropLast = c :: r.dropLast := by
        rw [hr]; rfl
      have hgl : lastD ' ' (c :: r) = lastD ' ' r :=
        lastD_cons ' ' c r hrne
      rw [hdl, hgl]
      have hback : (c :: r.dropLast) ++ [lastD ' ' r] = c :: r := by
        show c :: (r.dropLast ++ [lastD ' ' r]) = c :: r
        rw [dropLast_lastD r hrne]
      show lnsSpec P (c :: r) = _
      unfold lnsSpec lnsExt
      rw [hback]
      split_ifs with h
      · rfl
      · exact ih hrne

theorem lnsExt_eq_lnsSpec_append (P : List (List Char)) (a : Char) :
    ∀ u : List Char, lnsExt P u a = lnsSpec P (u ++ [a]) := by
  intro u
  induction u with
  | nil => rfl
  | cons c r ih =>
    show lnsExt P (c :: r) a = lnsSpec P (c :: (r ++ [a]))
    have h1 : lnsExt P (c :: r) a
        = if isNode P ((c :: r) ++ [a]) then (c :: r) ++ [a]
          else lnsExt P r a := rfl
    have h2 : lnsSpec P (c :: (r ++ [a]))
        = if isNode P (c :: (r ++ [a])) then c :: (r ++ [a])
          else lnsSpec P (r ++ [a]) := rfl
    rw [h1, h2, ih]
    rfl

/-! The `_build_failure_links` recurrence computes the longest proper
node suffix, and the search transition computes the longest node suffix
extended by the read character. -/

theorem fail_chase_char (P : List (List Char)) :
    ∀ n : ℕ,
    (∀ s : List Char, s.length ≤ n → ∀ fuel, 2 * s.length ≤ fuel →
      failRec P fuel s = lnsSpec P (s.drop 1))
    ∧ (∀ (f : List Char) (a : Char), f.length ≤ n →
        ∀ fuel, 2 * f.length + 1 ≤ fuel →
      chaseRec P fuel f a = lnsExt P f a) := by
  intro n
  induction n with
  | zero =>
    refine ⟨?_, ?_⟩
    · intro s hs fuel _
      have hs0 : s = [] := by
        cases s with
        | nil => rfl
        | cons c r => simp at hs
      subst hs0
      cases fuel with
      | zero => rfl
      | succ m => simp [failRec, lnsSpec]
    · intro f a hf fuel hfuel
      have hf0 : f = [] := by
        cases f with
        | nil => rfl
        | cons c r => simp at hf
      subst hf0
      obtain ⟨m, rfl⟩ : ∃ m, fuel = m + 1 := ⟨fuel - 1, by omega⟩
      simp [chaseRec, lnsExt]
  | succ n ih =>
    obtain ⟨ihf, ihc⟩ := ih
    have hfail : ∀ s : List Char, s.length ≤ n + 1 →
        ∀ fuel, 2 * s.length ≤ fuel →
        failRec P fuel s = lnsSpec P (s.drop 1) := by
      intro s hs fuel hfuel
      cases fuel with
      | zero =>
        have hs0 : s = [] := by
          cases s with
          | nil => rfl
          | cons c r => simp at hfuel
        subst hs0
        rfl
      | succ m =>
        by_cases hsmall : s.length ≤ 1
        · have hdrop : s.drop 1 = [] := by
            cases s with
            | nil => rfl
            | cons c r =>
              cases r with
              | nil => rfl
              | cons x xs => simp at hsmall
          simp [failRec, hsmall, hdrop, lnsSpec]
        · have h2 : 2 ≤ s.length := by omega
          have hstep : failRec P (m + 1) s
              = chaseRec P m (failRec P m s.dropLast) (lastD ' ' s) := by
            simp [failRec, hsmall]
          rw [hstep]
          have hdll : s.dropLast.length = s.length - 1 := by
            simp [List.length_dropLast]
          have hfr : failRec P m s.dropLast
              = lnsSpec P (s.dropLast.drop 1) :=
            ihf s.dropLast (by omega) m (by omega)
          rw [hfr]
          have hlen2 : (lnsSpec P (s.dropLast.drop 1)).length
              ≤ s.length - 2 := by
            have hle := (lnsSpec_suffix P (s.dropLast.drop 1)).length_le
            rw [List.length_drop, hdll] at hle
            omega
          have hch : chaseRec P m (lnsSpec P (s.dropLast.drop 1))
                (lastD ' ' s)
              = lnsExt P (lnsSpec P (s.dropLast.drop 1)) (lastD ' ' s) :=
            ihc _ _ (by omega) m (by omega)
          rw [hch, lnsExt_lnsSpec, dropLast_drop_one]
          have hsne : s.drop 1 ≠ [] := by
            cases s with
            | nil => simp at h2
            | cons c r =>
              cases r with
              | nil => simp at h2
              | cons x xs => simp
          have hlast : lastD ' ' s = lastD ' ' (s.drop 1) := by
            cases s with
            | nil => simp at h2
            | cons c r =>
              show lastD ' ' (c :: r) = lastD ' ' r
              exact lastD_cons ' ' c r (by
                cases r with
                | nil => simp at h2
                | cons x xs => simp)
          rw [hlast]
          exact (lnsSpec_eq_lnsExt_dropLast P (s.drop 1) hsne).symm
    refine ⟨hfail, ?_⟩
    intro f a hf fuel hfuel
    obtain ⟨m, rfl⟩ : ∃ m, fuel = m + 1 := ⟨fuel - 1, by omega⟩
    by_cases hn : isNode P (f ++ [a]) = true
    · have hstep : chaseRec P (m + 1) f a = f ++ [a] := by
        simp [chaseRec, hn]
      rw [hstep]
      cases f with
      | nil =>
        simp only [List.nil_append] at hn
        simp [lnsExt, hn]
      | cons c r =>
        have hunf : lnsExt P (c :: r) a
            = if isNode P ((c :: r) ++ [a]) then (c :: r) ++ [a]
              else lnsExt P r a := rfl
        rw [hunf, if_pos hn]
    · by_cases hemp : f = []
      · subst hemp
        have hstep : chaseRec P (m + 1) [] a = [] := by
          show (if isNode P ([] ++ [a]) then [] ++ [a]
            else if ([] : List Char).isEmpty then []
            else chaseRec P m (failRec P m []) a) = _
          rw [if_neg hn, if_pos (by rfl)]
        rw [hstep]
        have hn2 : isNode P [a] = false := by
          cases hx : isNode P [a] with
          | false => rfl
          | true => exact absurd hx hn
        simp [lnsExt, hn2]
      · have hempb : f.isEmpty = false := by
          cases f with
          | nil => exact absurd rfl hemp
          | cons c r => rfl
        have hstep : chaseRec P (m + 1) f a
            = chaseRec P m (failRec P m f) a := by
          simp [chaseRec, hn, hempb]
        rw [hstep]
        have hfr : failRec P m f = lnsSpec P (f.drop 1) :=
          hfail f hf m (by omega)
        rw [hfr]
        have hfpos : 1 ≤ f.length := by
          cases f with
          | nil => exact absurd rfl hemp
          | cons c r => simp
        have hlen : (lnsSpec P (f.drop 1)).length ≤ f.length - 1 := by
          have hle := (lnsSpec_suffix P (f.drop 1)).length_le
          rw [List.length_drop] at hle
          omega
        have hch : chaseRec P m (lnsSpec P (f.drop 1)) a
            = lnsExt P (lnsSpec P (f.drop 1)) a :=
          ihc _ a (by omega) m (by omega)
        rw [hch, lnsExt_lnsSpec]
        cases f with
        | nil => exact absurd rfl hemp
        | cons c r =>
          show lnsExt P r a = lnsExt P (c :: r) a
          have hunf : lnsExt P (c :: r) a
              = if isNode P ((c :: r) ++ [a]) then (c :: r) ++ [a]
                else lnsExt P r a := rfl
          rw [hunf, if_neg hn]

theorem acFail_char (P : List (List Char)) (s : List Char) :
    acFail P s = lnsSpec P (s.drop 1) :=
  (fail_chase_char P s.length).1 s (le_refl _) _ (by omega)

theorem deltaRec_char (P : List (List Char)) (c : Char) :
    ∀ n : ℕ, ∀ st : List Char, st.length ≤ n →
    ∀ fuel, st.length + 1 ≤ fuel →
    deltaRec P fuel st c = lnsExt P st c := by
  intro n
  induction n with
  | zero =>
    intro st hst fuel hfuel
    have hst0 : st = [] := by
      cases st with
      | nil => rfl
      | cons c0 r => simp at hst
    subst hst0
    obtain ⟨m, rfl⟩ : ∃ m, fuel = m + 1 := ⟨fuel - 1, by omega⟩
    simp [deltaRec, lnsExt]
  | succ n ih =>
    intro st hst fuel hfuel
    obtain ⟨m, rfl⟩ : ∃ m, fuel = m + 1 := ⟨fuel - 1, by omega⟩
    cases hst0 : st with
    | nil =>
      subst hst0
      simp [deltaRec, lnsExt]
    | cons c0 r =>
      subst hst0
      simp only [List.length_cons] at hst hfuel
      by_cases hn : isNode P ((c0 :: r) ++ [c]) = true
      · have hstep : deltaRec P (m + 1) (c0 :: r) c = (c0 :: r) ++ [c] := by
          show (if (c0 :: r).isEmpty then (if isNode P [c] then [c] else [])
            else if isNode P ((c0 :: r) ++ [c]) then (c0 :: r) ++ [c]
            else deltaRec P m (acFail P (c0 :: r)) c) = _
          rw [if_neg (by simp), if_pos hn]
        rw [hstep]
        have hunf : lnsExt P (c0 :: r) c
            = if isNode P ((c0 :: r) ++ [c]) then (c0 :: r) ++ [c]
              else lnsExt P r c := rfl
        rw [hunf, if_pos hn]
      · have hstep : deltaRec P (m + 1) (c0 :: r) c
            = deltaRec P m (acFail P (c0 :: r)) c := by
          show (if (c0 :: r).isEmpty then (if isNode P [c] then [c] else [])
            else if isNode P ((c0 :: r) ++ [c]) then (c0 :: r) ++ [c]
            else deltaRec P m (acFail P (c0 :: r)) c) = _
          rw [if_neg (by simp), if_neg hn]
        rw [hstep, acFail_char]
        have hlen : (lnsSpec P ((c0 :: r).drop 1)).length ≤ r.length := by
          have hle := (lnsSpec_suffix P ((c0 :: r).drop 1)).length_le
          rw [List.length_drop] at hle
          simp only [List.length_cons] at hle
          omega
        rw [ih _ (by omega) m (by omega)]
        rw [lnsExt_lnsSpec]
        show lnsExt P r c = lnsExt P (c0 :: r) c
        have hunf : lnsExt P (c0 :: r) c
            = if isNode P ((c0 :: r) ++ [c]) then (c0 :: r) ++ [c]
              else lnsExt P r c := rfl
        rw [hunf, if_neg hn]

theorem acDelta_char (P : List (List Char)) (st : List Char) (c : Char) :
    acDelta P st c = lnsExt P st c :=
  deltaRec_char P c st.length st (le_refl _) _ (le_refl _)

theorem acDelta_lnsSpec (P : List (List Char)) (u : List Char)
    (c : Char) :
    acDelta P (lnsSpec P u) c = lnsSpec P (u ++ [c]) := by
  rw [acDelta_char, lnsExt_lnsSpec, lnsExt_eq_lnsSpec_append]

/-! Output lists: a node emits exactly the patterns that are suffixes of
its path string. -/

theorem countL_cons {α : Type} [DecidableEq α] (x : α) (l : List α)
    (a : α) :
    countL (x :: l) a = countL l a + if x = a then 1 else 0 := by
  simp [countL, List.countP_cons]

theorem countL_append {α : Type} [DecidableEq α] (l₁ l₂ : List α)
    (a : α) :
    countL (l₁ ++ l₂) a = countL l₁ a + countL l₂ a := by
  simp [countL, List.countP_append]

theorem countL_pos_iff_mem {α : Type} [DecidableEq α] (l : List α)
    (a : α) : 0 < countL l a ↔ a ∈ l := by
  unfold countL
  rw [List.countP_pos]
  constructor
  · rintro ⟨x, hx, he⟩
    have : x = a := by simpa using he
    exact this ▸ hx
  · intro h
    exact ⟨a, h, by simp⟩

theorem countL_eq_one_of_nodup_mem {α : Type} [DecidableEq α]
    (l : List α) (h : l.Nodup) (a : α) (hm : a ∈ l) : countL l a = 1 := by
  induction l with
  | nil => simp at hm
  | cons x xs ih =>
    rw [countL_cons]
    rcases List.mem_cons.mp hm with h1 | h1
    · rw [if_pos h1.symm]
      have hnx : x ∉ xs := (List.nodup_cons.mp h).1
      have hz : countL xs a = 0 := by
        by_contra hc
        have hmem := (countL_pos_iff_mem xs a).mp (by omega)
        exact hnx (h1 ▸ hmem)
      omega
    · have hx : x ≠ a := by
        intro he
        exact (List.nodup_cons.mp h).1 (he ▸ h1)
      rw [if_neg hx, ih (List.nodup_cons.mp h).2 h1]

theorem countL_eq_zero_of_not_mem {α : Type} [DecidableEq α]
    (l : List α) (a : α) (hm : a ∉ l) : countL l a = 0 := by
  by_contra hc
  exact hm ((countL_pos_iff_mem l a).mp (by omega))

theorem count_filter_eq_self (L : List (List Char)) (s q : List Char) :
    countL (L.filter (fun p => p = s)) q
      = if q = s then countL L s else 0 := by
  induction L with
  | nil => simp [countL]
  | cons x xs ih =>
    rw [List.filter_cons]
    by_cases hx : x = s
    · rw [if_pos (by simp [hx]), countL_cons, ih, countL_cons]
      by_cases hq : q = s
      · rw [if_pos hq, if_pos hq, if_pos (hx.trans hq.symm), if_pos hx]
      · rw [if_neg hq, if_neg hq, if_neg (fun h => hq (h.symm.trans hx))]
    · rw [if_neg (by simp [hx]), ih]
      by_cases hq : q = s
      · rw [if_pos hq, if_pos hq, countL_cons, if_neg hx, Nat.add_zero]
      · rw [if_neg hq, if_neg hq]

theorem count_nodup (P : List (List Char)) (h : P.Nodup) (s : List Char) :
    countL P s = if s ∈ P then 1 else 0 := by
  by_cases hm : s ∈ P
  · rw [if_pos hm]
    exact countL_eq_one_of_nodup_mem P h s hm
  · rw [if_neg hm]
    exact countL_eq_zero_of_not_mem P s hm

theorem count_trieOut (P : List (List Char)) (s q : List Char)
    (hs : s ≠ []) :
    countL (trieOut P s) q = if q = s then countL P s else 0 := by
  unfold trieOut
  rw [if_neg (by simp [hs]), count_filter_eq_self]

theorem outRec_count (P : List (List Char)) (hne : ∀ p ∈ P, p ≠ [])
    (hnd : P.Nodup) :
    ∀ n : ℕ, ∀ s : List Char, s.length ≤ n →
    ∀ fuel, s.length + 1 ≤ fuel → ∀ q : List Char,
    countL (outRec P fuel s) q
      = if q.IsSuffix s ∧ q ∈ P then 1 else 0 := by
  intro n
  induction n with
  | zero =>
    intro s hs fuel hfuel q
    have hs0 : s = [] := by
      cases s with
      | nil => rfl
      | cons c0 r => simp at hs
    subst hs0
    obtain ⟨m, rfl⟩ : ∃ m, fuel = m + 1 := ⟨fuel - 1, by omega⟩
    have hstep : outRec P (m + 1) ([] : List Char) = [] := by
      simp [outRec]
    rw [hstep]
    have hno : ¬ ((q.IsSuffix []) ∧ q ∈ P) := fun h =>
      hne q h.2 (List.eq_nil_of_suffix_nil h.1)
    rw [if_neg hno]
    rfl
  | succ n ih =>
    intro s hs fuel hfuel q
    cases hs0 : s with
    | nil =>
      subst hs0
      obtain ⟨m, rfl⟩ : ∃ m, fuel = m + 1 := ⟨fuel - 1, by omega⟩
      have hstep : outRec P (m + 1) ([] : List Char) = [] := by
        simp [outRec]
      rw [hstep]
      have hno : ¬ ((q.IsSuffix []) ∧ q ∈ P) := fun h =>
        hne q h.2 (List.eq_nil_of_suffix_nil h.1)
      rw [if_neg hno]
      rfl
    | cons c0 r =>
      subst hs0
      obtain ⟨m, rfl⟩ : ∃ m, fuel = m + 1 := ⟨fuel - 1, by omega⟩
      have hstep : outRec P (m + 1) (c0 :: r)
          = trieOut P (c0 :: r) ++ outRec P m (acFail P (c0 :: r)) := by
        show (if (c0 :: r).isEmpty then []
          else trieOut P (c0 :: r)
            ++ outRec P m (acFail P (c0 :: r))) = _
        rw [if_neg (by simp)]
      rw [hstep, countL_append, acFail_char]
      have hf2 : (lnsSpec P ((c0 :: r).drop 1)).length ≤ r.length := by
        have hle := (lnsSpec_suffix P ((c0 :: r).drop 1)).length_le
        rw [List.length_drop] at hle
        simp only [List.length_cons] at hle
        omega
      simp only [List.length_cons] at hs hfuel
      rw [ih _ (by omega) m (by omega) q]
      rw [count_trieOut P (c0 :: r) q (by simp)]
      by_cases hq : q = c0 :: r
      · subst hq
        rw [if_pos rfl, count_nodup P hnd]
        have hno : ¬ ((c0 :: r).IsSuffix (lnsSpec P ((c0 :: r).drop 1))
            ∧ (c0 :: r) ∈ P) := by
          rintro ⟨h1, _⟩
          have hl := h1.length_le
          simp only [List.length_cons] at hl
          omega
        rw [if_neg hno]
        by_cases hmem : (c0 :: r) ∈ P
        · rw [if_pos hmem, if_pos ⟨List.suffix_refl _, hmem⟩]
        · rw [if_neg hmem, if_neg (fun h => hmem h.2)]
      · rw [if_neg hq, Nat.zero_add]
        have hiff : (q.IsSuffix (lnsSpec P ((c0 :: r).drop 1)) ∧ q ∈ P)
            ↔ (q.IsSuffix (c0 :: r) ∧ q ∈ P) := by
          constructor
          · rintro ⟨h1, h2⟩
            exact ⟨h1.trans ((lnsSpec_suffix P _).trans
              (List.drop_suffix 1 (c0 :: r))), h2⟩
          · rintro ⟨h1, h2⟩
            refine ⟨suffix_lnsSpec P _ q ?_ (mem_isNode P q h2), h2⟩
            rcases List.suffix_cons_iff.mp h1 with h3 | h3
            · exact absurd h3 hq
            · exact h3
        rw [if_congr hiff rfl rfl]

theorem acOut_count (P : List (List Char)) (hne : ∀ p ∈ P, p ≠ [])
    (hnd : P.Nodup) (s q : List Char) :
    countL (acOut P s) q = if q.IsSuffix s ∧ q ∈ P then 1 else 0 :=
  outRec_count P hne hnd s.length s (le_refl _) _ (le_refl _) q

theorem acOut_mem (P : List (List Char)) (hne : ∀ p ∈ P, p ≠ [])
    (hnd : P.Nodup) (s q : List Char) (h : q ∈ acOut P s) :
    q.IsSuffix s ∧ q ∈ P := by
  have hc := acOut_count P hne hnd s q
  by_cases hcond : q.IsSuffix s ∧ q ∈ P
  · exact hcond
  · rw [if_neg hcond] at hc
    have hpos : 0 < countL (acOut P s) q :=
      (countL_pos_iff_mem (acOut P s) q).mpr h
    omega

/-! The search scan: counting emitted matches. -/

theorem countL_emit (l : List (List Char)) (i : ℕ) (p : List Char)
    (s e : ℕ) :
    countL (l.map (fun q => (q, i - q.length, i))) (p, s, e)
      = if i - p.length = s ∧ i = e then countL l p else 0 := by
  induction l with
  | nil => simp [countL]
  | cons x xs ih =>
    rw [List.map_cons, countL_cons, ih, countL_cons]
    by_cases hcond : i - p.length = s ∧ i = e
    · rw [if_pos hcond]
      by_cases hx : x = p
      · rw [if_pos (by rw [hx, hcond.1, hcond.2]), if_pos hx,
          if_pos hcond]
      · rw [if_neg (fun h => hx (congrArg Prod.fst h)), if_neg hx,
          if_pos hcond]
    · rw [if_neg hcond, if_neg hcond,
        if_neg (fun h => hcond ⟨by
          have h1 : x = p := congrArg Prod.fst h
          have h2 : i - x.length = s := congrArg (fun z => z.2.1) h
          rw [← h1]
          exact h2,
          congrArg (fun z => z.2.2) h⟩)]

theorem suffix_iff_prefix_drop (u rest p : List Char) (s : ℕ)
    (hlen : s + p.length = u.length) :
    p.IsSuffix u ↔ p.isPrefixOf ((u ++ rest).drop s) = true := by
  constructor
  · rintro ⟨w, hw⟩
    have hwl : w.length = s := by
      have hc := congrArg List.length hw
      simp at hc
      omega
    rw [List.isPrefixOf_iff_prefix]
    have hd : (u ++ rest).drop s = p ++ rest := by
      rw [← hw, ← hwl, List.append_assoc, List.drop_left]
    rw [hd]
    exact List.prefix_append p rest
  · intro h
    have hsle : s ≤ u.length := by omega
    have hdrop : (u ++ rest).drop s = u.drop s ++ rest := by
      rw [List.drop_append_eq_append_drop,
        show s - u.length = 0 from by omega, List.drop_zero]
    rw [List.isPrefixOf_iff_prefix, hdrop] at h
    obtain ⟨t, ht⟩ := h
    have hpl : p = u.drop s := by
      have hc := congrArg (List.take p.length) ht
      rw [List.take_left] at hc
      rw [hc, show p.length = (u.drop s).length from by
        rw [List.length_drop]; omega, List.take_left]
    rw [hpl]
    exact List.drop_suffix s u

theorem acSearchGo_count (P : List (List Char)) (hne : ∀ p ∈ P, p ≠ [])
    (hnd : P.Nodup) (p : List Char) (hp : p ∈ P) :
    ∀ (rest u : List Char) (s : ℕ),
    countL (acSearchGo P (lnsSpec P u) u.length rest)
        (p, s, s + p.length)
      = if p.isPrefixOf ((u ++ rest).drop s) = true
          ∧ u.length < s + p.length then 1 else 0 := by
  intro rest
  induction rest with
  | nil =>
    intro u s
    rw [List.append_nil]
    show countL ([] : List (List Char × ℕ × ℕ)) _ = _
    rw [if_neg (by
      rintro ⟨h1, h2⟩
      rw [List.isPrefixOf_iff_prefix] at h1
      have hle := h1.length_le
      rw [List.length_drop] at hle
      have hpne : p ≠ [] := hne p hp
      have hppos : 0 < p.length := by
        cases p with
        | nil => exact absurd rfl hpne
        | cons a b => simp
      omega)]
    rfl
  | cons c rest ih =>
    intro u s
    show countL ((acOut P (acDelta P (lnsSpec P u) c)).map
        (fun q => (q, u.length + 1 - q.length, u.length + 1))
      ++ acSearchGo P (acDelta P (lnsSpec P u) c) (u.length + 1) rest)
      (p, s, s + p.length) = _
    rw [countL_append, acDelta_lnsSpec]
    have hrec := ih (u ++ [c]) s
    rw [show (u ++ [c]).length = u.length + 1 from by simp,
      List.append_assoc, List.singleton_append] at hrec
    rw [hrec, countL_emit,
      acOut_count P hne hnd (lnsSpec P (u ++ [c])) p]
    by_cases hpre : p.isPrefixOf ((u ++ c :: rest).drop s) = true
    · by_cases hend : s + p.length = u.length + 1
      · rw [if_pos ⟨by omega, by omega⟩]
        have hsuf : p.IsSuffix (u ++ [c]) := by
          rw [suffix_iff_prefix_drop (u ++ [c]) rest p s (by simp; omega)]
          rw [List.append_assoc, List.singleton_append]
          exact hpre
        rw [if_pos ⟨suffix_lnsSpec P _ p hsuf (mem_isNode P p hp), hp⟩,
          if_neg (fun h => absurd h.2 (by omega)),
          if_pos ⟨hpre, by omega⟩]
      · rw [if_neg (fun h => hend h.2.symm), Nat.zero_add]
        by_cases hlt : u.length + 1 < s + p.length
        · rw [if_pos ⟨hpre, hlt⟩, if_pos ⟨hpre, by omega⟩]
        · rw [if_neg (fun h => hlt h.2),
            if_neg (fun h => absurd h.2 (by omega))]
    · have hA : (if u.length + 1 - p.length = s
            ∧ u.length + 1 = s + p.length
          then (if p.IsSuffix (lnsSpec P (u ++ [c])) ∧ p ∈ P
            then 1 else 0) else 0) = 0 := by
        by_cases hc1 : u.length + 1 - p.length = s
            ∧ u.length + 1 = s + p.length
        · rw [if_pos hc1, if_neg (by
            rintro ⟨h1, _⟩
            have hsuf : p.IsSuffix (u ++ [c]) :=
              h1.trans (lnsSpec_suffix P _)
            have hbr := (suffix_iff_prefix_drop (u ++ [c]) rest p s
              (by simp; omega)).mp hsuf
            rw [List.append_assoc, List.singleton_append] at hbr
            exact hpre hbr)]
        · rw [if_neg hc1]
      rw [hA, Nat.zero_add, if_neg (fun h => hpre h.1),
        if_neg (fun h => hpre h.1)]

theorem acSearchGo_sound (P : List (List Char)) (hne : ∀ p ∈ P, p ≠ [])
    (hnd : P.Nodup) :
    ∀ (rest u : List Char) (m : List Char × ℕ × ℕ),
    m ∈ acSearchGo P (lnsSpec P u) u.length rest →
    m.1 ∈ P ∧ m.2.2 = m.2.1 + m.1.length
      ∧ m.1.isPrefixOf ((u ++ rest).drop m.2.1) = true := by
  intro rest
  induction rest with
  | nil =>
    intro u m h
    exact absurd h (List.not_mem_nil m)
  | cons c rest ih =>
    intro u m h
    rw [show acSearchGo P (lnsSpec P u) u.length (c :: rest)
      = (acOut P (acDelta P (lnsSpec P u) c)).map
          (fun q => (q, u.length + 1 - q.length, u.length + 1))
        ++ acSearchGo P (acDelta P (lnsSpec P u) c) (u.length + 1) rest
      from rfl] at h
    rw [acDelta_lnsSpec] at h
    rcases List.mem_append.mp h with h | h
    · obtain ⟨q, hq, hqe⟩ := List.mem_map.mp h
      obtain ⟨hsuf, hqP⟩ := acOut_mem P hne hnd _ q hq
      have hql : q.length ≤ u.length + 1 := by
        have hle := (hsuf.trans (lnsSpec_suffix P _)).length_le
        simpa using hle
      subst hqe
      refine ⟨hqP, ?_, ?_⟩
      · show u.length + 1 = (u.length + 1 - q.length) + q.length
        omega
      have hsuf2 : q.IsSuffix (u ++ [c]) :=
        hsuf.trans (lnsSpec_suffix P _)
      have hbr := (suffix_iff_prefix_drop (u ++ [c]) rest q
        (u.length + 1 - q.length) (by simp; omega)).mp hsuf2
      rw [List.append_assoc, List.singleton_append] at hbr
      exact hbr
    · have hmm := ih (u ++ [c]) m (by
        rw [show (u ++ [c]).length = u.length + 1 from by simp]
        exact h)
      obtain ⟨h1, h2, h3⟩ := hmm
      refine ⟨h1, h2, ?_⟩
      rw [List.append_assoc, List.singleton_append] at h3
      exact h3

/-- C2 (amended).  Aho-Corasick completeness with code-point offsets:
for every text and every list of nonempty patterns that are distinct
after lowercasing, the default (case-insensitive) search reports sound
matches only — each reported match carries a lowercased pattern, its
`end` equals `start` plus the pattern length, and the pattern occurs in
the lowercased text at code-point index `start` — and reports every
occurrence of every pattern exactly once: the number of reported
matches for pattern `p` at start `s` is 1 when `p` occurs at `s` in the
case-folded text and 0 otherwise.  Offsets are code-point indices, not
byte offsets. -/
theorem aho_corasick_amended (patterns : List (List Char))
    (t : List Char)
    (hne : ∀ p ∈ patterns, p ≠ [])
    (hnd : (patterns.map pyLower).Nodup) :
    (∀ m ∈ ac_search patterns t,
        m.1 ∈ patterns.map pyLower
        ∧ m.2.2 = m.2.1 + m.1.length
        ∧ m.1.isPrefixOf ((pyLower t).drop m.2.1) = true)
    ∧ (∀ p ∈ patterns, ∀ s : ℕ,
        countL (ac_search patterns t)
            (pyLower p, s, s + (pyLower p).length)
          = if (pyLower p).isPrefixOf ((pyLower t).drop s) = true
            then 1 else 0) := by
  have hne2 : ∀ q ∈ patterns.map pyLower, q ≠ [] := by
    intro q hq
    obtain ⟨p, hp, rfl⟩ := List.mem_map.mp hq
    intro hcon
    refine hne p hp ?_
    cases p with
    | nil => rfl
    | cons a b => simp [pyLower] at hcon
  constructor
  · intro m hm
    have hs := acSearchGo_sound (patterns.map pyLower) hne2 hnd
      (pyLower t) [] m hm
    obtain ⟨h1, h2, h3⟩ := hs
    rw [List.nil_append] at h3
    exact ⟨h1, h2, h3⟩
  · intro p hp s
    have hppos : 0 < (pyLower p).length := by
      have hpne := hne p hp
      cases p with
      | nil => exact absurd rfl hpne
      | cons a b => simp [pyLower]
    have hc := acSearchGo_count (patterns.map pyLower) hne2 hnd
      (pyLower p) (List.mem_map_of_mem pyLower hp) (pyLower t) [] s
    rw [List.nil_append] at hc
    show countL (acSearchGo (patterns.map pyLower)
        (lnsSpec (patterns.map pyLower) [])
        ([] : List Char).length (pyLower t))
      (pyLower p, s, s + (pyLower p).length) = _
    rw [hc]
    by_cases hpre : (pyLower p).isPrefixOf ((pyLower t).drop s) = true
    · rw [if_pos ⟨hpre, by show (0 : ℕ) < s + (pyLower p).length; omega⟩,
        if_pos hpre]
    · rw [if_neg (fun h => hpre h.1), if_neg hpre]

/-- C2's counterexample to the byte-offset wording: on the text `éab`
the single match of pattern `ab` is reported with `start = 1` (the
code-point index), while the UTF-8 byte offset of that occurrence is 2
(`é` encodes in two bytes), so start/end are not byte offsets. -/
theorem aho_corasick_byte_offset_counterexample :
    ac_search ["ab".toList] ("éab".toList) = [("ab".toList, 1, 3)]
    ∧ specByteOffset ("éab".toList) 1 = 2 :=
  ⟨by decide, by decide⟩

theorem aho_corasick_amended_witness :
    countL (ac_search ["ab".toList] ("xAb".toList))
        (pyLower ("ab".toList), 1, 1 + (pyLower ("ab".toList)).length)
      = 1 := by
  have h := (aho_corasick_amended ["ab".toList] ("xAb".toList)
    (by decide) (by decide)).2 ("ab".toList) (by decide) 1
  exact h.trans (by decide)

theorem label_propagation_amended_witness :
    bestPair [("a", 1), ("b", 1)] ∈ [("a", 1), ("b", 1)]
    ∧ lpLoop adjEx ordersEx 1 0 [("a", "a"), ("b", "b"), ("c", "b")]
      = [("a", "a"), ("b", "b"), ("c", "b")] :=
  ⟨(label_propagation_amended.1 [("a", 1), ("b", 1)] (by decide)).1,
   label_propagation_amended.2.2.1 adjEx ordersEx 0 0
     [("a", "a"), ("b", "b"), ("c", "b")] (by decide)⟩

end Muze
